import Mathlib

/-!
Verification development for the History of Rome podcast RAG system.

The repository ships a browser front end (static/js/app.js) and describes a
retrieval-augmented answering backend (Qdrant + Ollama behind a Flask API).
The backend pipeline itself is not part of the checked-in sources, so the
retrieval, assembly and composition layer below is modelled from the
specification; the front-end functions (formatAnswer, highlightRelevantText,
askQuestion handling) are embedded from static/js/app.js.
-/

namespace RomeRag

/-- Modelled from the spec: a Segment is the immutable unit of indexed content
(episode number, title, timestamp, text, fixed-dimension embedding vector).
The backend ingestion code is not under src/. -/
structure Segment where
  episode_number : Nat
  episode_title : String
  timestamp : String
  text : String
  embedding : List ℚ
deriving DecidableEq

/-- Modelled from the spec: a Segment annotated with a similarity score.
`ingestIdx` is the segment's position in ingestion order, the identity used
for deduplication and stable tie-breaking. -/
structure RetrievedContext where
  ingestIdx : Nat
  segment : Segment
  score : ℚ
deriving DecidableEq

/-- Modelled from the spec: the error taxonomy of section 7. -/
inductive RagError where
  | validationError
  | embeddingError
  | configMismatchError
  | ingestionError
  | generationError
  | indexUnavailableError
deriving DecidableEq

/-- Modelled from the spec: dot-product similarity between a query vector and
a stored embedding (spec section 2 allows cosine or dot similarity). -/
def dotSim : List ℚ → List ℚ → ℚ
  | a :: as, b :: bs => a * b + dotSim as bs
  | _, _ => 0

/-- Modelled from the spec: score every segment against the query vector,
tagging each with its ingestion index starting at `i`. -/
def scoreAll (q : List ℚ) : Nat → List Segment → List RetrievedContext
  | _, [] => []
  | i, s :: ss => ⟨i, s, dotSim q s.embedding⟩ :: scoreAll q (i + 1) ss

/-- Ranking order: higher score first, ties broken by ingestion order. -/
def rankLE (a b : RetrievedContext) : Prop :=
  b.score < a.score ∨ (a.score = b.score ∧ a.ingestIdx ≤ b.ingestIdx)

instance : DecidableRel rankLE := fun a b => by
  unfold rankLE
  infer_instance

instance : IsTotal RetrievedContext rankLE := by
  constructor
  intro a b
  rcases lt_trichotomy a.score b.score with h | h | h
  · exact Or.inr (Or.inl h)
  · rcases Nat.le_total a.ingestIdx b.ingestIdx with h2 | h2
    · exact Or.inl (Or.inr ⟨h, h2⟩)
    · exact Or.inr (Or.inr ⟨h.symm, h2⟩)
  · exact Or.inl (Or.inl h)

instance : IsTrans RetrievedContext rankLE := by
  constructor
  intro a b c hab hbc
  rcases hab with h1 | ⟨e1, i1⟩
  · rcases hbc with h2 | ⟨e2, i2⟩
    · exact Or.inl (h2.trans h1)
    · exact Or.inl (e2 ▸ h1)
  · rcases hbc with h2 | ⟨e2, i2⟩
    · exact Or.inl (by rw [e1]; exact h2)
    · exact Or.inr ⟨e1.trans e2, i1.trans i2⟩

/-- Modelled from the spec: Embedding Index `search`. Fails fast with
`ConfigMismatchError` when any stored embedding's dimension disagrees with
the query vector; otherwise returns the top `k` segments ranked by
descending similarity, ties broken by ingestion order. -/
def search (idx : List Segment) (q : List ℚ) (k : Nat) :
    Except RagError (List RetrievedContext) :=
  if idx.any (fun s => s.embedding.length != q.length) then
    .error .configMismatchError
  else
    .ok (((scoreAll q 0 idx).insertionSort rankLE).take k)

/-- Modelled from the spec: Retriever `retrieve` — validates the question and
the requested count, embeds the question with the configured backend, and
searches the index. -/
def retrieve (embed : String → List ℚ) (idx : List Segment)
    (question : String) (k : Nat) : Except RagError (List RetrievedContext) :=
  if question = "" ∨ k = 0 then .error .validationError
  else search idx (embed question) k

theorem scoreAll_length (q : List ℚ) (i : Nat) (ss : List Segment) :
    (scoreAll q i ss).length = ss.length := by
  induction ss generalizing i with
  | nil => rfl
  | cons s ss ih => simp [scoreAll, ih]

theorem scoreAll_map_idx (q : List ℚ) (i : Nat) (ss : List Segment) :
    (scoreAll q i ss).map RetrievedContext.ingestIdx = List.range' i ss.length := by
  induction ss generalizing i with
  | nil => rfl
  | cons s ss ih => simp [scoreAll, List.range', ih]

theorem scoreAll_idx_nodup (q : List ℚ) (i : Nat) (ss : List Segment) :
    ((scoreAll q i ss).map RetrievedContext.ingestIdx).Nodup := by
  rw [scoreAll_map_idx]
  exact List.nodup_range' i ss.length

theorem search_ok_of_dims (idx : List Segment) (q : List ℚ) (k : Nat)
    (hdim : ∀ s ∈ idx, s.embedding.length = q.length) :
    search idx q k = .ok (((scoreAll q 0 idx).insertionSort rankLE).take k) := by
  unfold search
  have hcond : idx.any (fun s => s.embedding.length != q.length) = false := by
    simp only [List.any_eq_false, bne_iff_ne, ne_eq, not_not]
    exact hdim
  simp only [hcond, Bool.false_eq_true, if_false]

/-- C1: for every non-empty corpus, matching embedding dimensions and k ≥ 1,
`retrieve` succeeds and returns exactly min(k, corpus size) segments, no
segment twice (distinct ingestion identities), scores non-increasing, ties
broken by ingestion order; when k is at least the corpus size the result is
a ranking of the entire scored corpus, not an error. -/
theorem retrieve_ranked_complete (embed : String → List ℚ) (idx : List Segment)
    (question : String) (k : Nat)
    (_hne : idx ≠ []) (hk : 1 ≤ k) (hq : question ≠ "")
    (hdim : ∀ s ∈ idx, s.embedding.length = (embed question).length) :
    ∃ res, retrieve embed idx question k = .ok res ∧
      res.length = min k idx.length ∧
      (res.map RetrievedContext.ingestIdx).Nodup ∧
      res.Pairwise (fun a b => b.score ≤ a.score) ∧
      res.Pairwise (fun a b => a.score = b.score → a.ingestIdx < b.ingestIdx) ∧
      (idx.length ≤ k → res.Perm (scoreAll (embed question) 0 idx)) := by
  have hperm := List.perm_insertionSort rankLE (scoreAll (embed question) 0 idx)
  have hlen : ((scoreAll (embed question) 0 idx).insertionSort rankLE).length
      = idx.length := by
    rw [hperm.length_eq, scoreAll_length]
  set sorted := (scoreAll (embed question) 0 idx).insertionSort rankLE with hsorted
  have hnodup : (sorted.map RetrievedContext.ingestIdx).Nodup :=
    (hperm.map RetrievedContext.ingestIdx).symm.nodup
      (scoreAll_idx_nodup (embed question) 0 idx)
  have hs : sorted.Pairwise rankLE :=
    List.sorted_insertionSort rankLE (scoreAll (embed question) 0 idx)
  refine ⟨sorted.take k, ?_, ?_, ?_, ?_, ?_, ?_⟩
  · unfold retrieve
    have hcond : ¬(question = "" ∨ k = 0) := by
      push_neg
      exact ⟨hq, by omega⟩
    rw [if_neg hcond]
    exact search_ok_of_dims idx (embed question) k hdim
  · rw [List.length_take, hlen]
  · exact List.Nodup.sublist
      ((List.take_sublist k sorted).map RetrievedContext.ingestIdx) hnodup
  · have htk := List.Pairwise.sublist (List.take_sublist k sorted) hs
    exact htk.imp (fun {a b} h => by
      rcases h with h | ⟨h, _⟩
      · exact le_of_lt h
      · exact le_of_eq h.symm)
  · have hidxne : sorted.Pairwise (fun a b => a.ingestIdx ≠ b.ingestIdx) :=
      List.pairwise_map.mp hnodup
    have hcomb := hs.and hidxne
    have htk := List.Pairwise.sublist (List.take_sublist k sorted) hcomb
    exact htk.imp (fun {a b} h heq => by
      rcases h with ⟨h1 | ⟨_, h2⟩, hne2⟩
      · exact (lt_irrefl _ (heq ▸ h1)).elim
      · exact lt_of_le_of_ne h2 hne2)
  · intro hkge
    rw [List.take_of_length_le (by rw [hlen]; exact hkge)]
    exact hperm

/-- C1 witness: a concrete two-segment corpus with k = 5 larger than the
corpus; the theorem applies and yields the full ranked corpus. -/
theorem retrieve_ranked_complete_witness :
    ∃ res, retrieve (fun _ => ([1] : List ℚ))
        [⟨1, "In the Beginning", "00:02", "founding of rome", [2]⟩,
         ⟨2, "Youthful Indiscretions", "00:05", "republic politics", [3]⟩]
        "who was caesar" 5 = .ok res ∧
      res.length = min 5 ([⟨1, "In the Beginning", "00:02", "founding of rome", ([2] : List ℚ)⟩,
         ⟨2, "Youthful Indiscretions", "00:05", "republic politics", [3]⟩] : List Segment).length ∧
      (res.map RetrievedContext.ingestIdx).Nodup ∧
      res.Pairwise (fun a b => b.score ≤ a.score) ∧
      res.Pairwise (fun a b => a.score = b.score → a.ingestIdx < b.ingestIdx) ∧
      (([⟨1, "In the Beginning", "00:02", "founding of rome", ([2] : List ℚ)⟩,
         ⟨2, "Youthful Indiscretions", "00:05", "republic politics", [3]⟩] : List Segment).length ≤ 5 →
        res.Perm (scoreAll [1] 0
          [⟨1, "In the Beginning", "00:02", "founding of rome", [2]⟩,
           ⟨2, "Youthful Indiscretions", "00:05", "republic politics", [3]⟩])) :=
  retrieve_ranked_complete (fun _ => [1]) _ "who was caesar" 5
    (by decide) (by decide) (by decide) (by decide)

/-- C4: a dimension mismatch between the query vector and any stored
embedding makes `search` fail with `ConfigMismatchError`, and a successful
`search` certifies that every stored embedding matches the query dimension —
no ranking is ever computed over mismatched dimensions. -/
theorem search_config_mismatch (idx : List Segment) (q : List ℚ) (k : Nat) :
    ((∃ s ∈ idx, s.embedding.length ≠ q.length) →
      search idx q k = .error .configMismatchError) ∧
    (∀ res, search idx q k = .ok res → ∀ s ∈ idx, s.embedding.length = q.length) := by
  constructor
  · intro h
    unfold search
    rw [if_pos]
    simp only [List.any_eq_true, bne_iff_ne]
    exact h
  · intro res hres s hs
    by_contra hne
    unfold search at hres
    rw [if_pos] at hres
    · exact Except.noConfusion hres
    · simp only [List.any_eq_true, bne_iff_ne]
      exact ⟨s, hs, hne⟩

/-- C4 witness: a one-segment index with a 2-dimensional embedding rejects a
1-dimensional query with `ConfigMismatchError`. -/
theorem search_config_mismatch_witness :
    search [⟨7, "The King Is Dead", "01:00", "tarquin", [1, 2]⟩] [3] 4 =
      .error .configMismatchError :=
  (search_config_mismatch [⟨7, "The King Is Dead", "01:00", "tarquin", [1, 2]⟩] [3] 4).1
    (by decide)

/-- Modelled from the spec: the text annotation of one retrieved segment
inside the assembled context block (episode number, timestamp, text). -/
def renderContext (c : RetrievedContext) : List Char :=
  "Episode ".data ++ (toString c.segment.episode_number).data ++ " [".data ++
    c.segment.timestamp.data ++ "]: ".data ++ c.segment.text.data ++ "\n".data

/-- Segment identity used by the Context Assembler's deduplication
(episode number plus timestamp, per spec section 4.3). -/
def sameSegment (a b : RetrievedContext) : Bool :=
  a.segment.episode_number == b.segment.episode_number &&
    a.segment.timestamp == b.segment.timestamp

/-- Fuel-indexed deduplication keeping the first (highest-ranked) copy of
each segment identity; the fuel is only a structural termination device and
`dedupe` always supplies enough. -/
def dedupeF : Nat → List RetrievedContext → List RetrievedContext
  | 0, _ => []
  | _, [] => []
  | fuel + 1, c :: cs =>
    c :: dedupeF fuel (cs.filter (fun d => !(sameSegment c d)))

/-- Modelled from the spec: deduplicate by segment identity, keeping the
first occurrence in rank order. -/
def dedupe (l : List RetrievedContext) : List RetrievedContext :=
  dedupeF l.length l

/-- Modelled from the spec: keep the longest prefix of the ranked context
list whose total rendered length fits in the character budget — equivalent
to repeatedly dropping the lowest-scoring segment while the block is too
large, never splitting a segment's text. -/
def fitWithinBudget (budget : Nat) : List RetrievedContext → List RetrievedContext
  | [] => []
  | c :: cs =>
    if (renderContext c).length ≤ budget then
      c :: fitWithinBudget (budget - (renderContext c).length) cs
    else []

/-- Modelled from the spec: the assembled context is either an explicit
empty-context marker or a text block; the two are distinct by construction
so the Answer Generator can branch on them. -/
inductive AssembledContext where
  | noContext
  | block (s : String)
deriving DecidableEq

/-- Modelled from the spec: defensive re-sort by descending score followed by
deduplication — the ranked, duplicate-free context sequence. -/
def rankedContexts (ctxs : List RetrievedContext) : List RetrievedContext :=
  dedupe (ctxs.insertionSort rankLE)

/-- Modelled from the spec: Context Assembler `assemble` — ranks, dedupes,
budgets, and concatenates whole segment annotations; an empty retrieval
result yields the explicit empty-context marker. -/
def assemble (budget : Nat) (ctxs : List RetrievedContext) : AssembledContext :=
  match ctxs with
  | [] => .noContext
  | _ :: _ =>
    .block (String.mk (((fitWithinBudget budget (rankedContexts ctxs)).map renderContext).flatten))

theorem fitWithinBudget_flatten_length (budget : Nat) (l : List RetrievedContext) :
    (((fitWithinBudget budget l).map renderContext).flatten).length ≤ budget := by
  induction l generalizing budget with
  | nil => simp [fitWithinBudget]
  | cons c cs ih =>
    by_cases h : (renderContext c).length ≤ budget
    · simp only [fitWithinBudget, if_pos h, List.map_cons, List.flatten_cons,
        List.length_append]
      have := ih (budget - (renderContext c).length)
      omega
    · simp [fitWithinBudget, if_neg h]

theorem fitWithinBudget_is_prefix (budget : Nat) (l : List RetrievedContext) :
    ∃ t, fitWithinBudget budget l ++ t = l := by
  induction l generalizing budget with
  | nil => exact ⟨[], rfl⟩
  | cons c cs ih =>
    by_cases h : (renderContext c).length ≤ budget
    · obtain ⟨t, ht⟩ := ih (budget - (renderContext c).length)
      exact ⟨t, by simp [fitWithinBudget, if_pos h, ht]⟩
    · exact ⟨c :: cs, by simp [fitWithinBudget, if_neg h]⟩

/-- C2: whenever `assemble` produces a block, the block's length respects the
configured budget, and the block is the concatenation of the whole
annotations of a prefix of the ranked deduplicated context list — segments
are dropped lowest-scoring first, and never truncated mid-segment. -/
theorem assemble_respects_budget (budget : Nat) (ctxs : List RetrievedContext)
    (s : String) (h : assemble budget ctxs = .block s) :
    s.length ≤ budget ∧
    ∃ kept dropped, kept ++ dropped = rankedContexts ctxs ∧
      s = String.mk ((kept.map renderContext).flatten) := by
  match ctxs, h with
  | c :: cs, h =>
    simp only [assemble, AssembledContext.block.injEq] at h
    subst h
    refine ⟨?_, fitWithinBudget budget (rankedContexts (c :: cs)), ?_⟩
    · show (String.mk _).length ≤ budget
      simpa using fitWithinBudget_flatten_length budget (rankedContexts (c :: cs))
    · obtain ⟨t, ht⟩ := fitWithinBudget_is_prefix budget (rankedContexts (c :: cs))
      exact ⟨t, ht, rfl⟩

theorem dedupeF_subset (fuel : Nat) (l : List RetrievedContext) :
    ∀ x ∈ dedupeF fuel l, x ∈ l := by
  induction fuel generalizing l with
  | zero => intro x hx; simp [dedupeF] at hx
  | succ fuel ih =>
    intro x hx
    match l with
    | [] => simp [dedupeF] at hx
    | c :: cs =>
      simp only [dedupeF, List.mem_cons] at hx
      rcases hx with rfl | hx
      · exact List.mem_cons_self x cs
      · exact List.mem_cons_of_mem c (List.mem_of_mem_filter (ih _ x hx))

theorem dedupe_subset (l : List RetrievedContext) : ∀ x ∈ dedupe l, x ∈ l :=
  dedupeF_subset l.length l

theorem mk_append_ne_empty (l t : List Char) (h : l ≠ []) :
    String.mk (l ++ t) ≠ "" := by
  intro he
  have h2 : l ++ t = [] := congrArg String.data he
  rcases List.append_eq_nil.mp h2 with ⟨h3, _⟩
  exact h h3

theorem renderContext_ne_nil (c : RetrievedContext) : renderContext c ≠ [] := by
  unfold renderContext
  intro h
  rcases List.append_eq_nil.mp h with ⟨_, h2⟩
  exact absurd h2 (by decide)

/-- C3: `assemble` of an empty retrieval yields the explicit empty-context
marker, the marker is distinct from every block, and on a non-empty
retrieval whose individual segment annotations fit the configured budget
the result is a non-empty block. -/
theorem assemble_empty_marker (budget : Nat) (ctxs : List RetrievedContext)
    (hne : ctxs ≠ [])
    (hfit : ∀ c ∈ ctxs, (renderContext c).length ≤ budget) :
    assemble budget ([] : List RetrievedContext) = .noContext ∧
    (∀ s, (AssembledContext.noContext = .block s) → False) ∧
    ∃ s, assemble budget ctxs = .block s ∧ s ≠ "" := by
  refine ⟨rfl, fun s hs => AssembledContext.noConfusion hs, ?_⟩
  match ctxs, hne, hfit with
  | c :: cs, _, hfit =>
    refine ⟨_, rfl, ?_⟩
    have hsortperm := List.perm_insertionSort rankLE (c :: cs)
    have hsortne : (c :: cs).insertionSort rankLE ≠ [] := by
      intro hnil
      have := hsortperm.length_eq
      rw [hnil] at this
      simp at this
    match hsorted : (c :: cs).insertionSort rankLE with
    | [] => exact absurd hsorted hsortne
    | d :: ds =>
      have hdranked : rankedContexts (c :: cs) =
          d :: dedupeF ds.length (ds.filter (fun e => !(sameSegment d e))) := by
        unfold rankedContexts dedupe
        rw [hsorted]
        rfl
      have hdmem : d ∈ c :: cs :=
        hsortperm.mem_iff.mp (by rw [hsorted]; exact List.mem_cons_self d ds)
      have hdfit : (renderContext d).length ≤ budget := hfit d hdmem
      rw [hdranked]
      simp only [fitWithinBudget, if_pos hdfit, List.map_cons, List.flatten_cons]
      exact mk_append_ne_empty _ _ (renderContext_ne_nil d)

/-- C2 witness: a concrete single-context assembly stays within a budget of
200 characters. -/
theorem assemble_respects_budget_witness :
    ∃ s, assemble 200
        [⟨0, ⟨1, "In the Beginning", "00:02", "the founding of rome", [1]⟩, 1⟩] =
          AssembledContext.block s ∧ s.length ≤ 200 := by
  refine ⟨_, rfl, ?_⟩
  exact (assemble_respects_budget 200
    [⟨0, ⟨1, "In the Beginning", "00:02", "the founding of rome", [1]⟩, 1⟩] _ rfl).1

/-- C3 witness: the empty retrieval gives the marker while a concrete
one-context retrieval with a generous budget gives a non-empty block. -/
theorem assemble_empty_marker_witness :
    assemble 200 ([] : List RetrievedContext) = .noContext ∧
    (∀ s, (AssembledContext.noContext = .block s) → False) ∧
    ∃ s, assemble 200
        [⟨0, ⟨1, "In the Beginning", "00:02", "the founding of rome", [1]⟩, 1⟩] =
          .block s ∧ s ≠ "" :=
  assemble_empty_marker 200
    [⟨0, ⟨1, "In the Beginning", "00:02", "the founding of rome", [1]⟩, 1⟩]
    (by decide) (by decide)

/-- Modelled from the spec: the AnswerResult envelope of a successful
request. -/
structure AnswerResult where
  question : String
  answer : String
  contexts : List RetrievedContext
  model : String
  search_time : ℚ
  generation_time : ℚ
  total_time : ℚ
deriving DecidableEq

/-- Modelled from the spec: Response Composer `compose` for successful
requests — packages the answer with timing, computing
`total_time = search_time + generation_time`. -/
def compose (question answer : String) (contexts : List RetrievedContext)
    (model : String) (searchTime genTime : ℚ) : AnswerResult :=
  ⟨question, answer, contexts, model, searchTime, genTime, searchTime + genTime⟩

/-- C5: the composed result's `total_time` is exactly the sum of
`search_time` and `generation_time` (exact rational arithmetic, hence within
any floating-point tolerance), all three durations are non-negative when the
measured inputs are, and `compose` is a deterministic function of its inputs
with a fixed structured shape. -/
theorem compose_total_time (q a : String) (c : List RetrievedContext) (m : String)
    (st gt : ℚ) (hs : 0 ≤ st) (hg : 0 ≤ gt) :
    (compose q a c m st gt).total_time =
      (compose q a c m st gt).search_time + (compose q a c m st gt).generation_time ∧
    0 ≤ (compose q a c m st gt).search_time ∧
    0 ≤ (compose q a c m st gt).generation_time ∧
    0 ≤ (compose q a c m st gt).total_time ∧
    compose q a c m st gt = AnswerResult.mk q a c m st gt (st + gt) :=
  ⟨rfl, hs, hg, add_nonneg hs hg, rfl⟩

/-- Embedding of JavaScript String.prototype.trim used by app.js (restricted
to the ASCII whitespace characters Lean's Char.isWhitespace recognises):
strip leading and trailing whitespace. -/
def trimChars (l : List Char) : List Char :=
  ((l.dropWhile Char.isWhitespace).reverse.dropWhile Char.isWhitespace).reverse

/-- String wrapper of `trimChars`. -/
def jsTrim (s : String) : String := String.mk (trimChars s.data)

/-- Modelled from the spec: the caller-facing response union — a success
envelope or an error envelope, never both. -/
inductive ComposedResponse where
  | success (question answer : String) (contexts : List RetrievedContext)
      (model : String) (searchTime genTime : ℚ)
  | failure (code : RagError) (message : String)
deriving DecidableEq

/-- Modelled from the spec: the short machine-readable code of each error in
the taxonomy of section 7. -/
def errorCode : RagError → String
  | .validationError => "ValidationError"
  | .embeddingError => "EmbeddingError"
  | .configMismatchError => "ConfigMismatchError"
  | .ingestionError => "IngestionError"
  | .generationError => "GenerationError"
  | .indexUnavailableError => "IndexUnavailableError"

/-- The JSON body of an /api/ask response as the client sees it: every field
optional, because the success shape and the error shape carry disjoint
field sets. -/
structure ApiResponse where
  question : Option String
  answer : Option String
  contexts : Option (List RetrievedContext)
  model : Option String
  search_time : Option ℚ
  generation_time : Option ℚ
  total_time : Option ℚ
  error : Option String
  message : Option String
deriving DecidableEq

/-- Modelled from the spec: serialisation of a composed result into the JSON
body — the success shape carries answer/contexts and no error field, the
error shape carries error/message and nothing else. -/
def toBody : ComposedResponse → ApiResponse
  | .success q a c m st gt =>
    ⟨some q, some a, some c, some m, some st, some gt, some (st + gt), none, none⟩
  | .failure e msg =>
    ⟨none, none, none, none, none, none, none, some (errorCode e), some msg⟩

/-- JavaScript truthiness of an optional string field: absent, null and the
empty string are falsy. -/
def jsTruthy : Option String → Bool
  | none => false
  | some s => s != ""

/-- JavaScript `a || b` over optional string fields, as a string result
(models `data.message || data.error` in app.js line 131). -/
def jsOr (a b : Option String) : String :=
  if jsTruthy a then a.getD "" else b.getD ""

/-- Outcome of the client's fetch of /api/ask: a network-level failure, or an
HTTP response with its ok flag, status and parsed JSON body. -/
inductive FetchOutcome where
  | networkFailure (msg : String)
  | httpResponse (ok : Bool) (status : Nat) (body : ApiResponse)
deriving DecidableEq

/-- What the client does with the fetch outcome: render an error, or render
the answer body. -/
inductive ClientAction where
  | showError (msg : String)
  | showAnswer (body : ApiResponse)
deriving DecidableEq

/-- Embedded from app.js askQuestion lines 112-137: a thrown network error or
a non-ok HTTP status displays an error; a body with a truthy `error` field
throws `data.message || data.error`, also displayed as an error; otherwise
the body is displayed as the answer. -/
def handleFetch : FetchOutcome → ClientAction
  | .networkFailure m => .showError m
  | .httpResponse ok status body =>
    if !ok then .showError ("HTTP error! status: " ++ toString status)
    else if jsTruthy body.error then .showError (jsOr body.message body.error)
    else .showAnswer body

/-- Replace the `answer` field of a body, leaving all other fields alone. -/
def withAnswer (b : ApiResponse) (a : Option String) : ApiResponse :=
  ⟨b.question, a, b.contexts, b.model, b.search_time, b.generation_time,
    b.total_time, b.error, b.message⟩

theorem errorCode_ne_empty (e : RagError) : errorCode e ≠ "" := by
  cases e <;> decide

/-- C6: every composed response has exactly one of the two shapes — the error
field is present exactly on failures, a body without `error` carries
`answer` and `contexts`, a body with `error` carries no `answer` and does
carry `message`; for composed bodies the client's truthiness test coincides
with field presence, the client's branch renders an error exactly when
`error` is present, and on the error branch the client never reads the
`answer` field (the action is unchanged under any answer value). -/
theorem response_shape_dichotomy (r : ComposedResponse) :
    ((toBody r).error.isSome = true ↔ ∃ e m, r = .failure e m) ∧
    (jsTruthy (toBody r).error = (toBody r).error.isSome) ∧
    ((toBody r).error = none →
      (toBody r).answer.isSome = true ∧ (toBody r).contexts.isSome = true) ∧
    ((toBody r).error.isSome = true →
      (toBody r).answer = none ∧ (toBody r).message.isSome = true) ∧
    (∀ status, handleFetch (.httpResponse true status (toBody r)) =
      if (toBody r).error.isSome = true then
        .showError (jsOr (toBody r).message (toBody r).error)
      else .showAnswer (toBody r)) ∧
    (∀ a, (toBody r).error.isSome = true →
      handleFetch (.httpResponse true 200 (withAnswer (toBody r) a)) =
        handleFetch (.httpResponse true 200 (toBody r))) := by
  cases r with
  | success q a c m st gt =>
    refine ⟨?_, ?_, ?_, ?_, ?_, ?_⟩
    · simp [toBody]
    · simp [toBody, jsTruthy]
    · intro _
      simp [toBody]
    · intro h
      simp [toBody] at h
    · intro status
      simp [handleFetch, toBody, jsTruthy]
    · intro a2 h
      simp [toBody] at h
  | failure e msg =>
    have hcode : (errorCode e != "") = true := by
      simp [bne_iff_ne]
      exact errorCode_ne_empty e
    refine ⟨?_, ?_, ?_, ?_, ?_, ?_⟩
    · simp [toBody]
    · simp [toBody, jsTruthy, hcode]
    · intro h
      simp [toBody] at h
    · intro _
      simp [toBody]
    · intro status
      simp [handleFetch, toBody, jsTruthy, hcode, jsOr]
    · intro a2 _
      simp [handleFetch, withAnswer, toBody, jsTruthy, hcode]

/-- C6 witness: a concrete generation failure renders as an error action with
no answer field in its body. -/
theorem response_shape_dichotomy_witness :
    ((toBody (.failure .generationError "Ollama timed out")).answer = none ∧
      (toBody (ComposedResponse.failure .generationError "Ollama timed out")).message.isSome = true) ∧
    handleFetch (.httpResponse true 200 (toBody (.failure .generationError "Ollama timed out"))) =
      .showError (jsOr (toBody (ComposedResponse.failure .generationError "Ollama timed out")).message
        (toBody (.failure .generationError "Ollama timed out")).error) := by
  constructor
  · exact (response_shape_dichotomy
      (.failure .generationError "Ollama timed out")).2.2.2.1 (by decide)
  · rw [(response_shape_dichotomy
      (.failure .generationError "Ollama timed out")).2.2.2.2.1 200]
    rfl

/-- Modelled from the spec: a trace entry for each call the pipeline makes to
an external backend. -/
inductive BackendCall where
  | embedText (question : String)
  | generateText (prompt : String)
deriving DecidableEq

/-- Modelled from the spec: the deterministic prompt template of the Answer
Generator — instruction, assembled context, question; the empty-context
marker short-circuits into a no-information instruction. -/
def promptTemplate (question : String) (ctx : AssembledContext) : String :=
  match ctx with
  | .noContext =>
    "No relevant context was found in the podcast transcripts. Say that the information is not available. Question: " ++ question
  | .block s =>
    "Answer the question using only the provided podcast context and cite episode numbers when referencing facts. Context: " ++ s ++ " Question: " ++ question

/-- Modelled from the spec: the request pipeline
embed, search, assemble, generate, compose, instrumented with the list of
backend calls actually made; validation failures return before any backend
call. -/
def answerPipeline (embed : String → List ℚ) (generate : String → String)
    (modelName : String) (idx : List Segment) (budget : Nat)
    (question : String) (k : Nat) (searchTime genTime : ℚ) :
    ComposedResponse × List BackendCall :=
  if question = "" ∨ k = 0 then
    (.failure .validationError "question must be non-empty and context_limit positive", [])
  else
    match search idx (embed question) k with
    | .error e => (.failure e "search failed", [.embedText question])
    | .ok res =>
      let prompt := promptTemplate question (assemble budget res)
      (.success question (generate prompt) res modelName searchTime genTime,
        [.embedText question, .generateText prompt])

/-- The client's POST request shape, built only after the trimmed question is
found non-empty. -/
structure PostRequest where
  question : String
  context_limit : Int
deriving DecidableEq

/-- Embedded from app.js askQuestion lines 96-122: the input is trimmed; an
empty trimmed question alerts and returns before any fetch; otherwise the
trimmed question is POSTed with the parsed context limit. -/
def clientPost (inputValue : String) (limitValue : Int) : Option PostRequest :=
  if jsTrim inputValue = "" then none
  else some ⟨jsTrim inputValue, limitValue⟩

/-- C7: when the question is empty or whitespace-only after trimming, the
client never POSTs to /api/ask, and the pipeline applied to the trimmed
question fails immediately with `ValidationError` while making zero backend
calls. -/
theorem empty_question_short_circuit (q : String) (limitValue : Int)
    (embed : String → List ℚ) (generate : String → String) (modelName : String)
    (idx : List Segment) (budget k : Nat) (st gt : ℚ)
    (h : jsTrim q = "") :
    clientPost q limitValue = none ∧
    (answerPipeline embed generate modelName idx budget (jsTrim q) k st gt).2 = [] ∧
    (answerPipeline embed generate modelName idx budget (jsTrim q) k st gt).1 =
      .failure .validationError "question must be non-empty and context_limit positive" := by
  refine ⟨?_, ?_, ?_⟩
  · unfold clientPost
    rw [if_pos h]
  · unfold answerPipeline
    rw [h, if_pos (Or.inl rfl)]
  · unfold answerPipeline
    rw [h, if_pos (Or.inl rfl)]

/-- C7 witness: a whitespace-only input is blocked client-side and rejected
by the pipeline without backend calls. -/
theorem empty_question_short_circuit_witness :
    clientPost "   " 5 = none ∧
    (answerPipeline (fun _ => []) (fun _ => "") "llama3.1:8b" [] 100 (jsTrim "   ") 3 0 0).2 = [] ∧
    (answerPipeline (fun _ => []) (fun _ => "") "llama3.1:8b" [] 100 (jsTrim "   ") 3 0 0).1 =
      .failure .validationError "question must be non-empty and context_limit positive" :=
  empty_question_short_circuit "   " 5 (fun _ => []) (fun _ => "") "llama3.1:8b"
    [] 100 3 0 0 (by decide)

/-- C5 witness: concrete timings 2 and 3 seconds compose to a total of 5. -/
theorem compose_total_time_witness :
    (compose "q" "ans" [] "llama3.1:8b" 2 3).total_time =
      (compose "q" "ans" [] "llama3.1:8b" 2 3).search_time +
        (compose "q" "ans" [] "llama3.1:8b" 2 3).generation_time ∧
    0 ≤ (compose "q" "ans" [] "llama3.1:8b" 2 3).search_time ∧
    0 ≤ (compose "q" "ans" [] "llama3.1:8b" 2 3).generation_time ∧
    0 ≤ (compose "q" "ans" [] "llama3.1:8b" 2 3).total_time ∧
    compose "q" "ans" [] "llama3.1:8b" 2 3 =
      AnswerResult.mk "q" "ans" [] "llama3.1:8b" 2 3 (2 + 3) :=
  compose_total_time "q" "ans" [] "llama3.1:8b" 2 3 (by decide) (by decide)

/-- JavaScript's word-character class [A-Za-z0-9_], the classes the regex
word boundary \b distinguishes. -/
def isWordChar (c : Char) : Bool := c.isAlpha || c.isDigit || c == '_'

/-- A \b boundary holds before the current position when the preceding
character (none at the start of the string) is not a word character; used
for patterns that start with a word character. -/
def boundaryBefore : Option Char → Bool
  | none => true
  | some c => !(isWordChar c)

/-- A \b boundary holds after a match ending in a word character when the
following text is empty or starts with a non-word character. -/
def boundaryAfter : List Char → Bool
  | [] => true
  | c :: _ => !(isWordChar c)

/-- The seven hardcoded names of app.js line 198, in alternation order. -/
def romanNames : List (List Char) :=
  [['C','a','e','s','a','r'],
   ['A','u','g','u','s','t','u','s'],
   ['C','i','c','e','r','o'],
   ['P','o','m','p','e','y'],
   ['C','r','a','s','s','u','s'],
   ['H','a','n','n','i','b','a','l'],
   ['C','o','n','s','t','a','n','t','i','n','e']]

/-- First alternative of the name alternation that matches at the current
position with both word boundaries, if any (no name is a prefix of
another, so at most one alternative can match). -/
def findName : List (List Char) → Option Char → List Char → Option (List Char)
  | [], _, _ => none
  | n :: rest, prev, cs =>
    if n.isPrefixOf cs && boundaryBefore prev && boundaryAfter (cs.drop n.length) then
      some n
    else findName rest prev cs

/-- Fuel-indexed scanner for the global replace
answer.replace(bCaesar...b, strong tags) of app.js line 198: at each
position, a boundary-delimited name is wrapped in strong tags and scanning
resumes after it, otherwise the character is copied. `prev` is the
character preceding the scan position in the string being scanned. The
fuel only drives structural recursion; matched names are non-empty, so
`cs.drop (n.length - 1)` equals `(c :: cs).drop n.length`. -/
def boldNamesF : Nat → Option Char → List Char → List Char
  | 0, _, l => l
  | _, _, [] => []
  | fuel + 1, prev, c :: cs =>
    match findName romanNames prev (c :: cs) with
    | some n =>
      "<strong>".data ++ n ++ "</strong>".data ++
        boldNamesF fuel (some (n.getLastD c)) (cs.drop (n.length - 1))
    | none => c :: boldNamesF fuel (some c) cs

/-- The name-bolding pass with sufficient fuel. -/
def boldNames (prev : Option Char) (l : List Char) : List Char :=
  boldNamesF l.length prev l

/-- The literal "Episode " prefix of the episode-reference pattern. -/
def episodeChars : List Char := ['E','p','i','s','o','d','e',' ']

/-- Split off the maximal leading run of digits (the greedy d+). -/
def digitSpan : List Char → List Char × List Char
  | [] => ([], [])
  | c :: cs =>
    if c.isDigit then
      let p := digitSpan cs
      (c :: p.1, p.2)
    else ([], c :: cs)

/-- Whether the pattern Episode-space-digit matches at this position (the
regex /Episode d+/ has no word boundaries). -/
def startsEpisodeRef (cs : List Char) : Bool :=
  episodeChars.isPrefixOf cs &&
    (match cs.drop 8 with
     | d :: _ => d.isDigit
     | [] => false)

/-- Fuel-indexed scanner for the global replace of /Episode d+/ with
strong-wrapped match of app.js line 196; `cs.drop 7` is the text after the
8-character "Episode " literal of the input `c :: cs`. -/
def boldEpisodesF : Nat → List Char → List Char
  | 0, l => l
  | _, [] => []
  | fuel + 1, c :: cs =>
    if startsEpisodeRef (c :: cs) then
      "<strong>".data ++ episodeChars ++ (digitSpan (cs.drop 7)).1 ++ "</strong>".data ++
        boldEpisodesF fuel (digitSpan (cs.drop 7)).2
    else c :: boldEpisodesF fuel cs

/-- The episode-bolding pass with sufficient fuel. -/
def boldEpisodes (l : List Char) : List Char := boldEpisodesF l.length l

/-- Embedded from app.js line 191: the global replace of two consecutive
newlines by a paragraph break, scanning left to right without overlap. -/
def replaceParaBreaks : List Char → List Char
  | [] => []
  | [c] => [c]
  | c :: d :: cs =>
    if c = '\n' ∧ d = '\n' then "</p><p>".data ++ replaceParaBreaks cs
    else c :: replaceParaBreaks (d :: cs)

/-- Embedded from app.js line 192: the global replace of a newline by a
br tag. -/
def replaceLineBreaks : List Char → List Char
  | [] => []
  | c :: cs =>
    if c = '\n' then "<br>".data ++ replaceLineBreaks cs
    else c :: replaceLineBreaks cs

/-- Embedded from app.js formatAnswer (lines 188-199): paragraph-break and
line-break conversion, wrapping in a p element, then episode bolding, then
name bolding — in source order. -/
def formatAnswerL (l : List Char) : List Char :=
  boldNames none
    (boldEpisodes ("<p>".data ++ replaceLineBreaks (replaceParaBreaks l) ++ "</p>".data))

/-- String wrapper of `formatAnswerL`. -/
def formatAnswer (answer : String) : String := String.mk (formatAnswerL answer.data)

/-- Case-insensitive match of the (already lowercased) word `w` at the start
of `cs`, as the i flag compares ASCII letters. -/
def ciMatchesAt (w cs : List Char) : Bool :=
  decide ((cs.take w.length).map Char.toLower = w)

/-- Fuel-indexed scanner for one global case-insensitive whole-word replace
pass new RegExp(b-word-b, gi) with mark-wrapped match (app.js lines
206-209): the matched original slice is preserved inside the mark tags.
Matched words are non-empty (the !w.isEmpty guard), so
`cs.drop (w.length - 1)` equals `(c :: cs).drop w.length`. -/
def markWordF (w : List Char) : Nat → Option Char → List Char → List Char
  | 0, _, l => l
  | _, _, [] => []
  | fuel + 1, prev, c :: cs =>
    if ciMatchesAt w (c :: cs) && boundaryBefore prev &&
        boundaryAfter ((c :: cs).drop w.length) && !(w.isEmpty) then
      "<mark>".data ++ (c :: cs).take w.length ++ "</mark>".data ++
        markWordF w fuel (some (((c :: cs).take w.length).getLastD c)) (cs.drop (w.length - 1))
    else c :: markWordF w fuel (some c) cs

/-- One replacement pass with sufficient fuel. -/
def markWord (w : List Char) (prev : Option Char) (l : List Char) : List Char :=
  markWordF w l.length prev l

/-- Fuel-indexed split of a character list into its maximal runs of
non-whitespace characters, the non-empty tokens of the JS split on
whitespace runs. -/
def wordsOfF : Nat → List Char → List (List Char)
  | 0, _ => []
  | _, [] => []
  | fuel + 1, c :: cs =>
    if c.isWhitespace then wordsOfF fuel cs
    else (c :: cs.takeWhile (fun d => !d.isWhitespace)) ::
      wordsOfF fuel (cs.dropWhile (fun d => !d.isWhitespace))

/-- Whitespace splitting with sufficient fuel. -/
def wordsOf (l : List Char) : List (List Char) := wordsOfF l.length l

/-- Embedded from app.js line 203: lowercase the question, split on
whitespace, keep the words longer than three characters. (Splitting on
whitespace runs and filtering empties agrees with the JS split-then-filter,
whose only possible empty token is a leading one.) -/
def qualifyingWords (question : String) : List (List Char) :=
  (wordsOf (question.data.map Char.toLower)).filter (fun w => decide (3 < w.length))

/-- Embedded from app.js highlightRelevantText (lines 201-212): one
sequential global replace pass per qualifying question word, each pass
scanning the output of the previous one. -/
def highlightRelevantText (text question : String) : String :=
  String.mk ((qualifyingWords question).foldl (fun acc w => markWord w none acc) text.data)

/-- The character preceding the scan position after `l` has been copied,
starting from `prev`. -/
def prevAfter : List Char → Option Char → Option Char
  | [], prev => prev
  | c :: cs, _ => prevAfter cs (some c)

/-- Characters that can start one of the seven names. -/
def nameStart (c : Char) : Bool :=
  'C' == c || 'A' == c || 'P' == c || 'H' == c

theorem findName_mem (ns : List (List Char)) (prev : Option Char) (cs n : List Char)
    (h : findName ns prev cs = some n) : n ∈ ns := by
  induction ns with
  | nil => simp [findName] at h
  | cons m ms ih =>
    simp only [findName] at h
    split at h
    · exact (Option.some.injEq _ _ ▸ h) ▸ List.mem_cons_self m ms
    · exact List.mem_cons_of_mem m (ih h)

theorem romanNames_ne_nil (n : List Char) (h : n ∈ romanNames) : n ≠ [] := by
  simp only [romanNames, List.mem_cons] at h
  rcases h with rfl | rfl | rfl | rfl | rfl | rfl | rfl | h
  all_goals first
    | decide
    | simp at h

theorem boldNamesF_fuel (f1 : Nat) : ∀ (f2 : Nat) (prev : Option Char) (l : List Char),
    l.length ≤ f1 → l.length ≤ f2 → boldNamesF f1 prev l = boldNamesF f2 prev l := by
  induction f1 with
  | zero =>
    intro f2 prev l h1 _
    have : l = [] := List.length_eq_zero.mp (Nat.le_zero.mp h1)
    subst this
    cases f2 <;> rfl
  | succ f1 ih =>
    intro f2 prev l h1 h2
    match l with
    | [] => cases f2 <;> rfl
    | c :: cs =>
      match f2, h2 with
      | f2 + 1, h2 =>
        simp only [List.length_cons, Nat.add_le_add_iff_right] at h1 h2
        cases hfn : findName romanNames prev (c :: cs) with
        | some n =>
          simp only [boldNamesF, hfn]
          rw [ih f2 _ _ (le_trans (by simp [List.length_drop]) h1)
            (le_trans (by simp [List.length_drop]) h2)]
        | none =>
          simp only [boldNamesF, hfn]
          rw [ih f2 _ _ h1 h2]

theorem boldNames_cons_none (prev : Option Char) (c : Char) (cs : List Char)
    (h : findName romanNames prev (c :: cs) = none) :
    boldNames prev (c :: cs) = c :: boldNames (some c) cs := by
  unfold boldNames
  simp only [List.length_cons, boldNamesF, h]

theorem boldNames_cons_some (prev : Option Char) (c : Char) (cs n : List Char)
    (h : findName romanNames prev (c :: cs) = some n) :
    boldNames prev (c :: cs) =
      "<strong>".data ++ n ++ "</strong>".data ++
        boldNames (some (n.getLastD c)) (cs.drop (n.length - 1)) := by
  unfold boldNames
  simp only [List.length_cons, boldNamesF, h]
  rw [boldNamesF_fuel cs.length _ _ _ (by simp [List.length_drop]) le_rfl]

theorem boldNames_skip (l : List Char) : ∀ (prev : Option Char) (rest : List Char),
    (∀ c ∈ l, nameStart c = false) →
    boldNames prev (l ++ rest) = l ++ boldNames (prevAfter l prev) rest := by
  induction l with
  | nil =>
    intro prev rest _
    simp [prevAfter]
  | cons c l ih =>
    intro prev rest h
    have hc : nameStart c = false := h c (List.mem_cons_self c l)
    have hfn : findName romanNames prev (c :: (l ++ rest)) = none := by
      simp only [nameStart, Bool.or_eq_false_iff] at hc
      obtain ⟨⟨⟨h1, h2⟩, h3⟩, h4⟩ := hc
      simp [findName, romanNames, List.isPrefixOf_cons₂, h1, h2, h3, h4]
    rw [List.cons_append, boldNames_cons_none prev c (l ++ rest) hfn,
      ih (some c) rest (fun d hd => h d (List.mem_cons_of_mem c hd))]
    rfl

theorem boldNames_id (l : List Char) (prev : Option Char)
    (h : ∀ c ∈ l, nameStart c = false) : boldNames prev l = l := by
  have := boldNames_skip l prev [] h
  simpa [boldNames, boldNamesF] using this

theorem isPrefixOf_self_append (l t : List Char) : l.isPrefixOf (l ++ t) = true := by
  induction l with
  | nil => simp [List.isPrefixOf]
  | cons a as ih => simp [List.isPrefixOf_cons₂, ih]

theorem findName_cons_true (m : List Char) (ns : List (List Char))
    (prev : Option Char) (rest : List Char)
    (hb : boundaryBefore prev = true) (ha : boundaryAfter rest = true) :
    findName (m :: ns) prev (m ++ rest) = some m := by
  have hcond : (m.isPrefixOf (m ++ rest) && boundaryBefore prev &&
      boundaryAfter ((m ++ rest).drop m.length)) = true := by
    rw [isPrefixOf_self_append, hb, List.drop_left, ha]
    rfl
  simp only [findName]
  rw [if_pos hcond]

theorem findName_at (n : List Char) (hmem : n ∈ romanNames) (prev : Option Char)
    (rest : List Char) (hb : boundaryBefore prev = true)
    (ha : boundaryAfter rest = true) :
    findName romanNames prev (n ++ rest) = some n := by
  simp only [romanNames, List.mem_cons, List.not_mem_nil, or_false] at hmem
  rcases hmem with rfl | rfl | rfl | rfl | rfl | rfl | rfl <;>
    exact findName_cons_true _ _ prev rest hb ha

theorem boldNames_at (n : List Char) (hmem : n ∈ romanNames) (prev : Option Char)
    (rest : List Char) (hb : boundaryBefore prev = true)
    (ha : boundaryAfter rest = true) :
    boldNames prev (n ++ rest) =
      "<strong>".data ++ n ++ "</strong>".data ++
        boldNames (some (n.getLastD 'A')) rest := by
  have hmem2 := hmem
  simp only [romanNames, List.mem_cons, List.not_mem_nil, or_false] at hmem2
  rcases hmem2 with rfl | rfl | rfl | rfl | rfl | rfl | rfl <;>
    exact (boldNames_cons_some prev _ _ _ (findName_at _ hmem prev rest hb ha)).trans rfl

theorem digitSpan_snd_length (l : List Char) : (digitSpan l).2.length ≤ l.length := by
  induction l with
  | nil => simp [digitSpan]
  | cons c cs ih =>
    by_cases h : c.isDigit
    · simp only [digitSpan, if_pos h]
      simpa using Nat.le_succ_of_le ih
    · simp [digitSpan, if_neg h]

theorem boldEpisodesF_fuel (f1 : Nat) : ∀ (f2 : Nat) (l : List Char),
    l.length ≤ f1 → l.length ≤ f2 → boldEpisodesF f1 l = boldEpisodesF f2 l := by
  induction f1 with
  | zero =>
    intro f2 l h1 _
    have : l = [] := List.length_eq_zero.mp (Nat.le_zero.mp h1)
    subst this
    cases f2 <;> rfl
  | succ f1 ih =>
    intro f2 l h1 h2
    match l with
    | [] => cases f2 <;> rfl
    | c :: cs =>
      match f2, h2 with
      | f2 + 1, h2 =>
        simp only [List.length_cons, Nat.add_le_add_iff_right] at h1 h2
        have hdrop : (digitSpan (cs.drop 7)).2.length ≤ cs.length :=
          le_trans (digitSpan_snd_length _) (by simp [List.length_drop])
        by_cases hst : startsEpisodeRef (c :: cs)
        · simp only [boldEpisodesF, if_pos hst]
          rw [ih f2 _ (le_trans hdrop h1) (le_trans hdrop h2)]
        · simp only [boldEpisodesF, if_neg hst]
          rw [ih f2 _ h1 h2]

theorem boldEpisodes_cons_false (c : Char) (cs : List Char)
    (h : startsEpisodeRef (c :: cs) = false) :
    boldEpisodes (c :: cs) = c :: boldEpisodes cs := by
  unfold boldEpisodes
  simp only [List.length_cons, boldEpisodesF, h, Bool.false_eq_true, if_false]

theorem boldEpisodes_cons_true (c : Char) (cs : List Char)
    (h : startsEpisodeRef (c :: cs) = true) :
    boldEpisodes (c :: cs) =
      "<strong>".data ++ episodeChars ++ (digitSpan (cs.drop 7)).1 ++ "</strong>".data ++
        boldEpisodes (digitSpan (cs.drop 7)).2 := by
  unfold boldEpisodes
  simp only [List.length_cons, boldEpisodesF, h, if_true]
  rw [boldEpisodesF_fuel cs.length _ _
    (le_trans (digitSpan_snd_length _) (by simp [List.length_drop])) le_rfl]

theorem startsEpisodeRef_false_of_head (c : Char) (cs : List Char)
    (h : ('E' == c) = false) : startsEpisodeRef (c :: cs) = false := by
  simp [startsEpisodeRef, episodeChars, List.isPrefixOf_cons₂, h]

theorem boldEpisodes_skip (l : List Char) : ∀ (rest : List Char),
    (∀ c ∈ l, ('E' == c) = false) →
    boldEpisodes (l ++ rest) = l ++ boldEpisodes rest := by
  induction l with
  | nil => intro rest _; rfl
  | cons c l ih =>
    intro rest h
    rw [List.cons_append,
      boldEpisodes_cons_false c (l ++ rest)
        (startsEpisodeRef_false_of_head c _ (h c (List.mem_cons_self c l))),
      ih rest (fun d hd => h d (List.mem_cons_of_mem c hd))]
    rfl

theorem boldEpisodes_id (l : List Char) (h : ∀ c ∈ l, ('E' == c) = false) :
    boldEpisodes l = l := by
  have := boldEpisodes_skip l [] h
  simpa [boldEpisodes, boldEpisodesF] using this

theorem digitSpan_append (ds rest : List Char)
    (hds : ∀ d ∈ ds, d.isDigit = true)
    (hrest : ∀ c, rest.head? = some c → c.isDigit = false) :
    digitSpan (ds ++ rest) = (ds, rest) := by
  induction ds with
  | nil =>
    cases rest with
    | nil => rfl
    | cons c rs =>
      have := hrest c rfl
      simp [digitSpan, this]
  | cons d ds ih =>
    have hd : d.isDigit = true := hds d (List.mem_cons_self d ds)
    simp [digitSpan, hd, ih (fun e he => hds e (List.mem_cons_of_mem d he))]

theorem boldEpisodes_at (ds rest : List Char) (d : Char)
    (hds : ∀ e ∈ d :: ds, e.isDigit = true)
    (hrest : ∀ c, rest.head? = some c → c.isDigit = false) :
    boldEpisodes (episodeChars ++ (d :: ds) ++ rest) =
      "<strong>".data ++ episodeChars ++ (d :: ds) ++ "</strong>".data ++
        boldEpisodes rest := by
  have h8 : ((episodeChars ++ (d :: ds) ++ rest).drop 8) = (d :: ds) ++ rest := by
    simp [episodeChars, List.append_assoc]
  have hst : startsEpisodeRef (episodeChars ++ (d :: ds) ++ rest) = true := by
    rw [startsEpisodeRef]
    rw [List.append_assoc, isPrefixOf_self_append]
    rw [show (episodeChars ++ ((d :: ds) ++ rest)).drop 8 = (d :: ds) ++ rest from rfl]
    simp [hds d (List.mem_cons_self d ds)]
  have hspan : digitSpan (((episodeChars ++ (d :: ds) ++ rest).drop 8)) = (d :: ds, rest) := by
    rw [h8, List.append_assoc] at *
    exact digitSpan_append (d :: ds) rest hds hrest
  rw [show episodeChars ++ (d :: ds) ++ rest =
    'E' :: ('p' :: 'i' :: 's' :: 'o' :: 'd' :: 'e' :: ' ' :: ((d :: ds) ++ rest)) by
      simp [episodeChars]]
  rw [boldEpisodes_cons_true _ _ (by
    rw [show ('E' :: ('p' :: 'i' :: 's' :: 'o' :: 'd' :: 'e' :: ' ' :: ((d :: ds) ++ rest))) =
      episodeChars ++ (d :: ds) ++ rest by simp [episodeChars]]
    exact hst)]
  rw [show (('p' :: 'i' :: 's' :: 'o' :: 'd' :: 'e' :: ' ' :: ((d :: ds) ++ rest)).drop 7) =
    (d :: ds) ++ rest from rfl]
  rw [digitSpan_append (d :: ds) rest hds hrest]

theorem replaceParaBreaks_id (l : List Char) (h : ∀ c ∈ l, c ≠ '\n') :
    replaceParaBreaks l = l := by
  induction l with
  | nil => rfl
  | cons c cs ih =>
    cases cs with
    | nil => rfl
    | cons d ds =>
      have hcnd : ¬(c = '\n' ∧ d = '\n') := by
        intro hcd
        exact h c (List.mem_cons_self c _) hcd.1
      simp only [replaceParaBreaks, if_neg hcnd]
      rw [ih (fun e he => h e (List.mem_cons_of_mem c he))]

theorem replaceLineBreaks_id (l : List Char) (h : ∀ c ∈ l, c ≠ '\n') :
    replaceLineBreaks l = l := by
  induction l with
  | nil => rfl
  | cons c cs ih =>
    have hc : ¬(c = '\n') := h c (List.mem_cons_self c cs)
    simp only [replaceLineBreaks, if_neg hc]
    rw [ih (fun e he => h e (List.mem_cons_of_mem c he))]

theorem prevAfter_concat (l : List Char) (a : Char) : ∀ (prev : Option Char),
    prevAfter (l ++ [a]) prev = some a := by
  induction l with
  | nil => intro prev; rfl
  | cons c cs ih => intro prev; exact ih (some c)

theorem beq_eq_false_of_pred (x c : Char) (p : Char → Bool)
    (hx : p x = false) (hc : p c = true) : (x == c) = false := by
  cases hbe : (x == c) with
  | false => rfl
  | true =>
    have hxc : x = c := beq_iff_eq.mp hbe
    rw [hxc, hc] at hx
    exact Bool.noConfusion hx

/-- A character class for which the bolding passes are inert: lowercase
letters and spaces. -/
def plainChar (c : Char) : Bool := c.isLower || c == ' '

theorem plainChar_nameStart (c : Char) (h : plainChar c = true) :
    nameStart c = false := by
  simp only [plainChar, Bool.or_eq_true, beq_iff_eq] at h
  rcases h with h | rfl
  · simp only [nameStart, Bool.or_eq_false_iff]
    exact ⟨⟨⟨beq_eq_false_of_pred _ _ Char.isLower (by decide) h,
      beq_eq_false_of_pred _ _ Char.isLower (by decide) h⟩,
      beq_eq_false_of_pred _ _ Char.isLower (by decide) h⟩,
      beq_eq_false_of_pred _ _ Char.isLower (by decide) h⟩
  · decide

theorem plainChar_not_E (c : Char) (h : plainChar c = true) :
    ('E' == c) = false := by
  simp only [plainChar, Bool.or_eq_true, beq_iff_eq] at h
  rcases h with h | rfl
  · exact beq_eq_false_of_pred _ _ Char.isLower (by decide) h
  · decide

theorem plainChar_not_newline (c : Char) (h : plainChar c = true) :
    c ≠ '\n' := by
  simp only [plainChar, Bool.or_eq_true, beq_iff_eq] at h
  rcases h with h | rfl
  · intro heq
    rw [heq] at h
    exact absurd h (by decide)
  · decide

theorem tagP_inert :
    ∀ c ∈ ("<p>".data : List Char), ('E' == c) = false ∧ nameStart c = false := by
  decide

theorem tagPc_inert :
    ∀ c ∈ ("</p>".data : List Char), ('E' == c) = false ∧ nameStart c = false := by
  decide

theorem tagStrong_inert :
    ∀ c ∈ ("<strong>".data : List Char) ++ "</strong>".data,
      ('E' == c) = false ∧ nameStart c = false := by
  decide

theorem episodeChars_inert :
    ∀ c ∈ episodeChars, nameStart c = false ∧ c ≠ '\n' := by
  decide

theorem romanNames_inert :
    ∀ n ∈ romanNames, ∀ c ∈ n, ('E' == c) = false ∧ c ≠ '\n' := by
  decide

theorem digit_inert (c : Char) (h : c.isDigit = true) :
    nameStart c = false ∧ c ≠ '\n' := by
  constructor
  · simp only [nameStart, Bool.or_eq_false_iff]
    exact ⟨⟨⟨beq_eq_false_of_pred _ _ Char.isDigit (by decide) h,
      beq_eq_false_of_pred _ _ Char.isDigit (by decide) h⟩,
      beq_eq_false_of_pred _ _ Char.isDigit (by decide) h⟩,
      beq_eq_false_of_pred _ _ Char.isDigit (by decide) h⟩
  · intro heq
    rw [heq] at h
    exact absurd h (by decide)

theorem markWordF_fuel (w : List Char) (f1 : Nat) :
    ∀ (f2 : Nat) (prev : Option Char) (l : List Char),
    l.length ≤ f1 → l.length ≤ f2 → markWordF w f1 prev l = markWordF w f2 prev l := by
  induction f1 with
  | zero =>
    intro f2 prev l h1 _
    have : l = [] := List.length_eq_zero.mp (Nat.le_zero.mp h1)
    subst this
    cases f2 <;> rfl
  | succ f1 ih =>
    intro f2 prev l h1 h2
    match l with
    | [] => cases f2 <;> rfl
    | c :: cs =>
      match f2, h2 with
      | f2 + 1, h2 =>
        simp only [List.length_cons, Nat.add_le_add_iff_right] at h1 h2
        by_cases hg : (ciMatchesAt w (c :: cs) && boundaryBefore prev &&
            boundaryAfter ((c :: cs).drop w.length) && !(w.isEmpty)) = true
        · simp only [markWordF, if_pos hg]
          rw [ih f2 _ _ (le_trans (by simp [List.length_drop]) h1)
            (le_trans (by simp [List.length_drop]) h2)]
        · simp only [markWordF, if_neg hg]
          rw [ih f2 _ _ h1 h2]

theorem markWord_cons_false (w : List Char) (prev : Option Char) (c : Char) (cs : List Char)
    (h : (ciMatchesAt w (c :: cs) && boundaryBefore prev &&
      boundaryAfter ((c :: cs).drop w.length) && !(w.isEmpty)) = false) :
    markWord w prev (c :: cs) = c :: markWord w (some c) cs := by
  unfold markWord
  simp only [List.length_cons, markWordF, h, Bool.false_eq_true, if_false]

theorem markWord_cons_true (w : List Char) (prev : Option Char) (c : Char) (cs : List Char)
    (h : (ciMatchesAt w (c :: cs) && boundaryBefore prev &&
      boundaryAfter ((c :: cs).drop w.length) && !(w.isEmpty)) = true) :
    markWord w prev (c :: cs) =
      "<mark>".data ++ (c :: cs).take w.length ++ "</mark>".data ++
        markWord w (some (((c :: cs).take w.length).getLastD c)) (cs.drop (w.length - 1)) := by
  unfold markWord
  simp only [List.length_cons, markWordF, h, if_true]
  rw [markWordF_fuel w cs.length _ _ _ (by simp [List.length_drop]) le_rfl]

theorem ciMatchesAt_false_of_head (w0 c : Char) (w1 cs : List Char)
    (h : (Char.toLower c == w0) = false) :
    ciMatchesAt (w0 :: w1) (c :: cs) = false := by
  simp only [ciMatchesAt, List.length_cons, List.take_succ_cons, List.map_cons,
    decide_eq_false_iff_not]
  intro heq
  have h0 : Char.toLower c = w0 := (List.cons.injEq _ _ _ _ ▸ heq).1
  rw [h0] at h
  simp at h

theorem markWord_skip (w0 : Char) (w1 : List Char) (l : List Char) :
    ∀ (prev : Option Char) (rest : List Char),
    (∀ c ∈ l, (Char.toLower c == w0) = false) →
    markWord (w0 :: w1) prev (l ++ rest) =
      l ++ markWord (w0 :: w1) (prevAfter l prev) rest := by
  induction l with
  | nil => intro prev rest _; rfl
  | cons c l ih =>
    intro prev rest h
    have hci : ciMatchesAt (w0 :: w1) (c :: (l ++ rest)) = false :=
      ciMatchesAt_false_of_head w0 c w1 _ (h c (List.mem_cons_self c l))
    rw [List.cons_append,
      markWord_cons_false _ prev c _ (by rw [hci]; rfl),
      ih (some c) rest (fun d hd => h d (List.mem_cons_of_mem c hd))]
    rfl

theorem markWord_id (w0 : Char) (w1 : List Char) (l : List Char) (prev : Option Char)
    (h : ∀ c ∈ l, (Char.toLower c == w0) = false) :
    markWord (w0 :: w1) prev l = l := by
  have := markWord_skip w0 w1 l prev [] h
  simpa [markWord, markWordF] using this

theorem getLastD_irrel (v : List Char) (hne : v ≠ []) (d1 d2 : Char) :
    v.getLastD d1 = v.getLastD d2 := by
  cases v with
  | nil => exact absurd rfl hne
  | cons a l =>
    obtain ⟨x, hx⟩ : ∃ x, (a :: l).getLast? = some x := by
      cases h : (a :: l).getLast? with
      | some x => exact ⟨x, rfl⟩
      | none => exact absurd (List.getLast?_eq_none_iff.mp h) (by simp)
    simp [List.getLastD_eq_getLast?, hx]

theorem markWord_at (w0 : Char) (w1 : List Char) (v rest : List Char) (prev : Option Char)
    (hv : v.map Char.toLower = w0 :: w1)
    (hb : boundaryBefore prev = true) (ha : boundaryAfter rest = true) :
    markWord (w0 :: w1) prev (v ++ rest) =
      "<mark>".data ++ v ++ "</mark>".data ++
        markWord (w0 :: w1) (some (v.getLastD 'a')) rest := by
  have hvlen : v.length = (w0 :: w1).length := by
    rw [← hv, List.length_map]
  match v, hv with
  | c :: v1, hv =>
    have hvlen2 : (c :: v1).length = (w0 :: w1).length := by
      rw [← hv, List.length_map]
    have htake : ((c :: v1) ++ rest).take (w0 :: w1).length = c :: v1 :=
      List.take_left' hvlen2
    have hdrop : ((c :: v1) ++ rest).drop (w0 :: w1).length = rest :=
      List.drop_left' hvlen2
    have hg : (ciMatchesAt (w0 :: w1) (c :: (v1 ++ rest)) && boundaryBefore prev &&
        boundaryAfter ((c :: (v1 ++ rest)).drop (w0 :: w1).length) &&
        !((w0 :: w1).isEmpty)) = true := by
      rw [show (c :: (v1 ++ rest)) = (c :: v1) ++ rest from rfl]
      rw [show ciMatchesAt (w0 :: w1) ((c :: v1) ++ rest) = true by
        simp only [ciMatchesAt, htake, decide_eq_true_eq]
        exact hv]
      rw [hdrop, hb, ha]
      rfl
    rw [List.cons_append, markWord_cons_true _ prev c _ hg]
    rw [show (c :: (v1 ++ rest)) = (c :: v1) ++ rest from rfl, htake]
    have hdrop2 : (v1 ++ rest).drop ((w0 :: w1).length - 1) = rest :=
      List.drop_left' (by
        simp only [List.length_cons] at hvlen2 ⊢
        omega)
    rw [hdrop2]
    rw [getLastD_irrel (c :: v1) (by simp) c 'a']

/-- The character immediately preceding position `i` of `l`; at position 0
it is the context character `prev` that preceded the scanned string. -/
def prevAt (prev : Option Char) (l : List Char) (i : Nat) : Option Char :=
  if i = 0 then prev else l[i-1]?

/-- All positions of `l` at which the pattern test `matchAt` fires, each
judged with the character preceding that position. -/
def occurrencePositions (matchAt : Option Char → List Char → Bool)
    (prev : Option Char) (l : List Char) : List Nat :=
  (List.range l.length).filter (fun i => matchAt (prevAt prev l i) (l.drop i))

/-- Fuel-driven worker for `splice` (structural recursion on the fuel). -/
def spliceF (lt rt : List Char) (lenAt : List Char → Nat) :
    Nat → List Char → List Nat → List Char
  | 0, l, _ => l
  | _ + 1, l, [] => l
  | fuel + 1, l, i :: ps =>
    l.take i ++ lt ++ (l.drop i).take (lenAt (l.drop i)) ++ rt ++
      spliceF lt rt lenAt fuel ((l.drop i).drop (lenAt (l.drop i)))
        (ps.map (fun j => j - (i + lenAt (l.drop i))))

/-- Wrap `lt`/`rt` around the slice of length `lenAt suffix` starting at each
listed position of `l` (positions ascending and non-overlapping as a
scanner produces them); every character outside the listed slices is
copied unchanged. -/
def splice (lt rt : List Char) (lenAt : List Char → Nat) (l : List Char)
    (ps : List Nat) : List Char :=
  spliceF lt rt lenAt ps.length l ps

theorem splice_nil (lt rt : List Char) (lenAt : List Char → Nat) (l : List Char) :
    splice lt rt lenAt l [] = l := rfl

theorem splice_cons (lt rt : List Char) (lenAt : List Char → Nat) (l : List Char)
    (i : Nat) (ps : List Nat) :
    splice lt rt lenAt l (i :: ps) =
      l.take i ++ lt ++ (l.drop i).take (lenAt (l.drop i)) ++ rt ++
        splice lt rt lenAt ((l.drop i).drop (lenAt (l.drop i)))
          (ps.map (fun j => j - (i + lenAt (l.drop i)))) := by
  show spliceF lt rt lenAt (ps.length + 1) l (i :: ps) = _
  unfold splice
  rw [List.length_map]
  rfl

theorem filter_map_add_one (xs : List Nat) (p : Nat → Bool) :
    (xs.map (fun i => i + 1)).filter p =
      (xs.filter (fun i => p (i + 1))).map (fun i => i + 1) := by
  induction xs with
  | nil => rfl
  | cons x xs ih =>
    simp only [List.map_cons, List.filter_cons]
    by_cases h : p (x + 1)
    · simp [h, ih]
    · simp [h, ih]

theorem range_filter_shift_one (n : Nat) (p : Nat → Bool) (h0 : p 0 = false) :
    (List.range (n + 1)).filter p =
      ((List.range n).filter (fun i => p (i + 1))).map (fun i => i + 1) := by
  rw [List.range_succ_eq_map]
  rw [show List.map Nat.succ (List.range n) = List.map (fun i => i + 1) (List.range n) from
    List.map_congr_left (fun a _ => Nat.succ_eq_add_one a)]
  simp only [List.filter_cons, h0, Bool.false_eq_true, if_false]
  exact filter_map_add_one (List.range n) p

theorem range_filter_cons_zero (n : Nat) (p : Nat → Bool) (h0 : p 0 = true) :
    (List.range (n + 1)).filter p =
      0 :: ((List.range n).filter (fun i => p (i + 1))).map (fun i => i + 1) := by
  rw [List.range_succ_eq_map]
  rw [show List.map Nat.succ (List.range n) = List.map (fun i => i + 1) (List.range n) from
    List.map_congr_left (fun a _ => Nat.succ_eq_add_one a)]
  simp only [List.filter_cons, h0, if_true]
  rw [filter_map_add_one (List.range n) p]

theorem range_filter_shift (k : Nat) : ∀ (n : Nat) (p : Nat → Bool),
    (∀ i, i < k → p i = false) →
    (List.range n).filter p =
      ((List.range (n - k)).filter (fun i => p (i + k))).map (fun i => i + k) := by
  induction k with
  | zero =>
    intro n p _
    rw [Nat.sub_zero]
    symm
    rw [List.filter_congr (fun a _ => congrArg p (Nat.add_zero a))]
    rw [List.map_congr_left (fun a _ => Nat.add_zero a)]
    simp
  | succ k ih =>
    intro n p h
    cases n with
    | zero => simp
    | succ m =>
      rw [range_filter_shift_one m p (h 0 (Nat.succ_pos k))]
      rw [ih m (fun i => p (i + 1)) (fun i hi => h (i + 1) (by omega))]
      rw [List.map_map]
      have e1 : m + 1 - (k + 1) = m - k := by omega
      rw [show (m + 1 - (k + 1)) = m - k from e1]
      rw [List.filter_congr (fun a _ => (congrArg p (by omega : a + k + 1 = a + (k + 1)) :
        p (a + k + 1) = p (a + (k + 1))))]
      exact List.map_congr_left (fun a _ => by
        show a + k + 1 = a + (k + 1)
        omega)

theorem range_filter_match (n L : Nat) (p : Nat → Bool) (h0 : p 0 = true) (h1 : 1 ≤ L)
    (hin : ∀ j, 1 ≤ j → j < L → p j = false) :
    (List.range (n + 1)).filter p =
      0 :: ((List.range (n + 1 - L)).filter (fun i => p (i + L))).map (fun i => i + L) := by
  rw [range_filter_cons_zero n p h0]
  congr 1
  rw [range_filter_shift (L - 1) n (fun i => p (i + 1))
    (fun i hi => hin (i + 1) (by omega) (by omega))]
  rw [List.map_map]
  rw [show (n - (L - 1)) = n + 1 - L from by omega]
  rw [List.filter_congr (fun a _ => (congrArg p (by omega : a + (L - 1) + 1 = a + L) :
    p (a + (L - 1) + 1) = p (a + L)))]
  exact List.map_congr_left (fun a _ => by
    show a + (L - 1) + 1 = a + L
    omega)

theorem splice_shift_one (lt rt : List Char) (lenAt : List Char → Nat) (c : Char)
    (cs : List Char) (ps : List Nat) :
    splice lt rt lenAt (c :: cs) (ps.map (fun i => i + 1)) =
      c :: splice lt rt lenAt cs ps := by
  cases ps with
  | nil => rfl
  | cons i ps =>
    simp only [List.map_cons, splice_cons, List.take_succ_cons, List.drop_succ_cons,
      List.cons_append]
    congr 3
    rw [List.map_map]
    exact List.map_congr_left (fun a _ => by
      show a + 1 - (i + 1 + lenAt (cs.drop i)) = a - (i + lenAt (cs.drop i))
      omega)

theorem prevAt_cons_succ (prev : Option Char) (c : Char) (cs : List Char) (i : Nat) :
    prevAt prev (c :: cs) (i + 1) = prevAt (some c) cs i := by
  unfold prevAt
  cases i with
  | zero => simp
  | succ i => simp [List.getElem?_cons_succ]

theorem take_getLastD (l : List Char) (c : Char) (L : Nat) (h1 : 1 ≤ L)
    (h2 : L ≤ l.length) : l[L-1]? = some ((l.take L).getLastD c) := by
  rw [List.getLastD_eq_getLast?, List.getLast?_eq_getElem?, List.length_take]
  rw [show min L l.length = L from min_eq_left h2]
  rw [List.getElem?_take, if_pos (by omega : L - 1 < L)]
  have hlt : L - 1 < l.length := by omega
  rw [List.getElem?_eq_getElem hlt]
  rfl

theorem prevAt_match_shift (prev : Option Char) (c : Char) (cs : List Char) (L k : Nat)
    (h1 : 1 ≤ L) (h2 : L ≤ (c :: cs).length) :
    prevAt prev (c :: cs) (k + L) =
      prevAt (some (((c :: cs).take L).getLastD c)) ((c :: cs).drop L) k := by
  unfold prevAt
  cases k with
  | zero =>
    rw [if_neg (by omega), if_pos rfl]
    rw [show (0 + L - 1) = L - 1 from by omega]
    exact take_getLastD (c :: cs) c L h1 h2
  | succ k =>
    rw [if_neg (by omega), if_neg (by omega)]
    rw [List.getElem?_drop]
    rw [show (k + 1 + L - 1) = L + (k + 1 - 1) from by omega]

/-- A left-to-right scanner that, at each position, either copies the head
character or wraps `lt`/`rt` around the slice it matched and resumes after
that slice, rewrites every string to the splice of its tags at exactly the
occurrence positions of its pattern — provided no new match starts strictly
inside a matched slice. -/
theorem scan_splice_exact
    (scan : Option Char → List Char → List Char)
    (matchAt : Option Char → List Char → Bool)
    (lenAt : List Char → Nat) (lt rt : List Char)
    (hnil : ∀ prev, scan prev [] = [])
    (hfalse : ∀ prev c cs, matchAt prev (c :: cs) = false →
      scan prev (c :: cs) = c :: scan (some c) cs)
    (htrue : ∀ prev c cs, matchAt prev (c :: cs) = true →
      scan prev (c :: cs) =
        lt ++ (c :: cs).take (lenAt (c :: cs)) ++ rt ++
          scan (some (((c :: cs).take (lenAt (c :: cs))).getLastD c))
            ((c :: cs).drop (lenAt (c :: cs))))
    (hlen1 : ∀ prev c cs, matchAt prev (c :: cs) = true → 1 ≤ lenAt (c :: cs))
    (hlenle : ∀ prev c cs, matchAt prev (c :: cs) = true →
      lenAt (c :: cs) ≤ (c :: cs).length)
    (hinside : ∀ prev c cs j, matchAt prev (c :: cs) = true → 1 ≤ j →
      j < lenAt (c :: cs) → matchAt ((c :: cs)[j-1]?) ((c :: cs).drop j) = false) :
    ∀ (n : Nat) (l : List Char) (prev : Option Char), l.length ≤ n →
      scan prev l = splice lt rt lenAt l (occurrencePositions matchAt prev l) := by
  intro n
  induction n with
  | zero =>
    intro l prev hle
    have hl : l = [] := List.length_eq_zero.mp (Nat.le_zero.mp hle)
    subst hl
    rw [hnil]
    rfl
  | succ n ih =>
    intro l prev hle
    cases l with
    | nil => rw [hnil]; rfl
    | cons c cs =>
      have hle2 : cs.length ≤ n := by
        simp only [List.length_cons] at hle
        omega
      by_cases hm : matchAt prev (c :: cs) = true
      · have h1 : 1 ≤ lenAt (c :: cs) := hlen1 prev c cs hm
        have h2 : lenAt (c :: cs) ≤ (c :: cs).length := hlenle prev c cs hm
        have hp0 : matchAt (prevAt prev (c :: cs) 0) ((c :: cs).drop 0) = true := by
          simpa [prevAt] using hm
        have hpos : occurrencePositions matchAt prev (c :: cs) =
            0 :: (occurrencePositions matchAt
              (some (((c :: cs).take (lenAt (c :: cs))).getLastD c))
              ((c :: cs).drop (lenAt (c :: cs)))).map (fun i => i + lenAt (c :: cs)) := by
          unfold occurrencePositions
          rw [List.length_cons]
          rw [range_filter_match cs.length (lenAt (c :: cs))
            (fun i => matchAt (prevAt prev (c :: cs) i) ((c :: cs).drop i)) hp0 h1
            (fun j hj1 hjL => by
              have hj' : prevAt prev (c :: cs) j = (c :: cs)[j-1]? := by
                unfold prevAt
                rw [if_neg (by omega)]
              show matchAt (prevAt prev (c :: cs) j) ((c :: cs).drop j) = false
              rw [hj']
              exact hinside prev c cs j hm hj1 hjL)]
          rw [List.length_drop, List.length_cons]
          congr 1
          apply congrArg
          apply List.filter_congr
          intro a ha
          show matchAt (prevAt prev (c :: cs) (a + lenAt (c :: cs)))
              ((c :: cs).drop (a + lenAt (c :: cs))) =
            matchAt (prevAt (some (((c :: cs).take (lenAt (c :: cs))).getLastD c))
              ((c :: cs).drop (lenAt (c :: cs))) a)
              (((c :: cs).drop (lenAt (c :: cs))).drop a)
          rw [prevAt_match_shift prev c cs (lenAt (c :: cs)) a h1 h2, List.drop_drop,
            Nat.add_comm (lenAt (c :: cs)) a]
        rw [htrue prev c cs hm, hpos, splice_cons]
        simp only [List.take_zero, List.drop_zero, List.nil_append, Nat.zero_add]
        rw [List.map_map]
        rw [List.map_congr_left (fun a _ => (by
          show a + lenAt (c :: cs) - lenAt (c :: cs) = a
          omega : ((fun j => j - lenAt (c :: cs)) ∘ fun i => i + lenAt (c :: cs)) a = a))]
        rw [show List.map (fun a => a)
            (occurrencePositions matchAt
              (some (((c :: cs).take (lenAt (c :: cs))).getLastD c))
              ((c :: cs).drop (lenAt (c :: cs)))) =
          occurrencePositions matchAt
              (some (((c :: cs).take (lenAt (c :: cs))).getLastD c))
              ((c :: cs).drop (lenAt (c :: cs))) from by simp]
        rw [ih ((c :: cs).drop (lenAt (c :: cs)))
          (some (((c :: cs).take (lenAt (c :: cs))).getLastD c))
          (by
            rw [List.length_drop]
            simp only [List.length_cons]
            omega)]
      · have hm2 : matchAt prev (c :: cs) = false := by
          cases hmm : matchAt prev (c :: cs)
          · rfl
          · exact absurd hmm hm
        have hp0 : matchAt (prevAt prev (c :: cs) 0) ((c :: cs).drop 0) = false := by
          simpa [prevAt] using hm2
        have hpos : occurrencePositions matchAt prev (c :: cs) =
            (occurrencePositions matchAt (some c) cs).map (fun i => i + 1) := by
          unfold occurrencePositions
          rw [List.length_cons]
          rw [range_filter_shift_one cs.length
            (fun i => matchAt (prevAt prev (c :: cs) i) ((c :: cs).drop i)) hp0]
          apply congrArg
          apply List.filter_congr
          intro a ha
          show matchAt (prevAt prev (c :: cs) (a + 1)) ((c :: cs).drop (a + 1)) =
            matchAt (prevAt (some c) cs a) (cs.drop a)
          rw [prevAt_cons_succ, List.drop_succ_cons]
        rw [hfalse prev c cs hm2, hpos, splice_shift_one, ih cs (some c) hle2]

/-- Whether the name alternation of app.js line 198 matches at this
position with both word boundaries. -/
def nameGuard (prev : Option Char) (cs : List Char) : Bool :=
  (findName romanNames prev cs).isSome

/-- First alternative that is a plain prefix of the text (no boundary
checks); on the seven names this determines the matched alternative, since
no name is a prefix of another. -/
def prefixName : List (List Char) → List Char → Option (List Char)
  | [], _ => none
  | n :: ns, cs => if n.isPrefixOf cs then some n else prefixName ns cs

/-- Length of the name slice matched at this position (0 off-match). -/
def nameLen (cs : List Char) : Nat :=
  match prefixName romanNames cs with
  | some n => n.length
  | none => 0

theorem prefix_take (a : List Char) : ∀ (b : List Char), a.isPrefixOf b = true →
    b.take a.length = a := by
  induction a with
  | nil => intro b _; rfl
  | cons x xs ih =>
    intro b h
    cases b with
    | nil => simp [List.isPrefixOf] at h
    | cons y ys =>
      simp only [List.isPrefixOf_cons₂, Bool.and_eq_true, beq_iff_eq] at h
      obtain ⟨rfl, h2⟩ := h
      simp only [List.length_cons, List.take_succ_cons]
      rw [ih ys h2]

theorem prefix_len_le (a b : List Char) (h : a.isPrefixOf b = true) :
    a.length ≤ b.length := by
  have hlen := congrArg List.length (prefix_take a b h)
  simp only [List.length_take] at hlen
  omega

theorem prefix_total (a : List Char) : ∀ (b cs : List Char),
    a.isPrefixOf cs = true → b.isPrefixOf cs = true →
    a.isPrefixOf b = true ∨ b.isPrefixOf a = true := by
  induction a with
  | nil => intro b cs _ _; left; simp [List.isPrefixOf]
  | cons x xs ih =>
    intro b cs h1 h2
    cases b with
    | nil => right; simp [List.isPrefixOf]
    | cons y ys =>
      cases cs with
      | nil => simp [List.isPrefixOf] at h1
      | cons z zs =>
        simp only [List.isPrefixOf_cons₂, Bool.and_eq_true, beq_iff_eq] at h1 h2
        obtain ⟨rfl, h1t⟩ := h1
        obtain ⟨rfl, h2t⟩ := h2
        rcases ih ys zs h1t h2t with h | h
        · left
          simp [List.isPrefixOf_cons₂, h]
        · right
          simp [List.isPrefixOf_cons₂, h]

theorem findName_some_spec (ns : List (List Char)) (prev : Option Char)
    (cs n : List Char) (h : findName ns prev cs = some n) :
    n ∈ ns ∧ n.isPrefixOf cs = true ∧ boundaryBefore prev = true ∧
      boundaryAfter (cs.drop n.length) = true := by
  induction ns with
  | nil => simp [findName] at h
  | cons m ms ih =>
    simp only [findName] at h
    by_cases hcond : (m.isPrefixOf cs && boundaryBefore prev &&
        boundaryAfter (cs.drop m.length)) = true
    · rw [if_pos hcond] at h
      have heq : m = n := Option.some.inj h
      subst heq
      simp only [Bool.and_eq_true] at hcond
      exact ⟨List.mem_cons_self m ms, hcond.1.1, hcond.1.2, hcond.2⟩
    · rw [if_neg hcond] at h
      obtain ⟨hmem, hrest⟩ := ih h
      exact ⟨List.mem_cons_of_mem m hmem, hrest⟩

theorem findName_none_of_bb (ns : List (List Char)) (prev : Option Char)
    (cs : List Char) (hb : boundaryBefore prev = false) :
    findName ns prev cs = none := by
  induction ns with
  | nil => rfl
  | cons m ms ih =>
    simp only [findName, hb, Bool.and_false, Bool.false_and, Bool.false_eq_true,
      if_false]
    exact ih

theorem romanNames_pairwise :
    romanNames.Pairwise (fun a b => a.isPrefixOf b = false ∧ b.isPrefixOf a = false) := by
  decide

theorem romanNames_word : ∀ n ∈ romanNames, ∀ ch ∈ n, isWordChar ch = true := by
  decide

theorem findName_prefixName (ns : List (List Char))
    (hnd : ns.Pairwise (fun a b => a.isPrefixOf b = false ∧ b.isPrefixOf a = false)) :
    ∀ (prev : Option Char) (cs n : List Char),
    findName ns prev cs = some n → prefixName ns cs = some n := by
  induction ns with
  | nil => intro prev cs n h; simp [findName] at h
  | cons m ms ih =>
    intro prev cs n h
    obtain ⟨hhead, htail⟩ := List.pairwise_cons.mp hnd
    simp only [findName] at h
    by_cases hcond : (m.isPrefixOf cs && boundaryBefore prev &&
        boundaryAfter (cs.drop m.length)) = true
    · rw [if_pos hcond] at h
      have heq : m = n := Option.some.inj h
      subst heq
      have hpfx : m.isPrefixOf cs = true := by
        simp only [Bool.and_eq_true] at hcond
        exact hcond.1.1
      simp only [prefixName]
      rw [if_pos hpfx]
    · rw [if_neg hcond] at h
      have hspec := findName_some_spec ms prev cs n h
      have hmf : m.isPrefixOf cs = false := by
        cases hmp : m.isPrefixOf cs with
        | false => rfl
        | true =>
          rcases prefix_total m n cs hmp hspec.2.1 with hx | hx
          · have hfa := (hhead n hspec.1).1
            rw [hfa] at hx
            exact Bool.noConfusion hx
          · have hfa := (hhead n hspec.1).2
            rw [hfa] at hx
            exact Bool.noConfusion hx
      simp only [prefixName]
      rw [if_neg (by
        intro hx
        rw [hmf] at hx
        exact Bool.noConfusion hx)]
      exact ih htail prev cs n h

theorem nameGuard_eq_none (prev : Option Char) (cs : List Char)
    (h : nameGuard prev cs = false) : findName romanNames prev cs = none := by
  cases hf : findName romanNames prev cs with
  | none => rfl
  | some n =>
    unfold nameGuard at h
    rw [hf] at h
    exact Bool.noConfusion h

theorem nameLen_of_findName (prev : Option Char) (cs n : List Char)
    (hf : findName romanNames prev cs = some n) : nameLen cs = n.length := by
  unfold nameLen
  rw [findName_prefixName romanNames romanNames_pairwise prev cs n hf]

theorem boldNames_htrue (prev : Option Char) (c : Char) (cs : List Char)
    (hm : nameGuard prev (c :: cs) = true) :
    boldNames prev (c :: cs) =
      "<strong>".data ++ (c :: cs).take (nameLen (c :: cs)) ++ "</strong>".data ++
        boldNames (some (((c :: cs).take (nameLen (c :: cs))).getLastD c))
          ((c :: cs).drop (nameLen (c :: cs))) := by
  obtain ⟨n, hf⟩ := Option.isSome_iff_exists.mp hm
  have hspec := findName_some_spec romanNames prev (c :: cs) n hf
  have hlen : nameLen (c :: cs) = n.length := nameLen_of_findName prev (c :: cs) n hf
  have htake : (c :: cs).take n.length = n := prefix_take n (c :: cs) hspec.2.1
  have hne : n ≠ [] := romanNames_ne_nil n hspec.1
  obtain ⟨n0, n1, rfl⟩ := List.exists_cons_of_ne_nil hne
  rw [hlen, htake]
  rw [boldNames_cons_some prev c cs (n0 :: n1) hf]
  simp only [List.length_cons, Nat.add_sub_cancel, List.drop_succ_cons]

theorem nameGuard_len1 (prev : Option Char) (c : Char) (cs : List Char)
    (hm : nameGuard prev (c :: cs) = true) : 1 ≤ nameLen (c :: cs) := by
  obtain ⟨n, hf⟩ := Option.isSome_iff_exists.mp hm
  have hspec := findName_some_spec romanNames prev (c :: cs) n hf
  have hne : n ≠ [] := romanNames_ne_nil n hspec.1
  rw [nameLen_of_findName prev (c :: cs) n hf]
  cases n with
  | nil => exact absurd rfl hne
  | cons a b => simp

theorem nameGuard_lenle (prev : Option Char) (c : Char) (cs : List Char)
    (hm : nameGuard prev (c :: cs) = true) : nameLen (c :: cs) ≤ (c :: cs).length := by
  obtain ⟨n, hf⟩ := Option.isSome_iff_exists.mp hm
  have hspec := findName_some_spec romanNames prev (c :: cs) n hf
  rw [nameLen_of_findName prev (c :: cs) n hf]
  exact prefix_len_le n (c :: cs) hspec.2.1

theorem nameGuard_inside (prev : Option Char) (c : Char) (cs : List Char) (j : Nat)
    (hm : nameGuard prev (c :: cs) = true) (hj1 : 1 ≤ j)
    (hjL : j < nameLen (c :: cs)) :
    nameGuard ((c :: cs)[j-1]?) ((c :: cs).drop j) = false := by
  obtain ⟨n, hf⟩ := Option.isSome_iff_exists.mp hm
  have hspec := findName_some_spec romanNames prev (c :: cs) n hf
  rw [nameLen_of_findName prev (c :: cs) n hf] at hjL
  have htake : (c :: cs).take n.length = n := prefix_take n (c :: cs) hspec.2.1
  have hnlen : n.length ≤ (c :: cs).length := prefix_len_le n (c :: cs) hspec.2.1
  have hjlt : j - 1 < (c :: cs).length := by omega
  have hx : ((c :: cs).take n.length)[j-1]? = some ((c :: cs)[j-1]) := by
    rw [List.getElem?_take, if_pos (by omega : j - 1 < n.length),
      List.getElem?_eq_getElem hjlt]
  rw [htake] at hx
  have hmem : (c :: cs)[j-1] ∈ n := List.getElem?_mem hx
  have hword : isWordChar ((c :: cs)[j-1]) = true :=
    romanNames_word n hspec.1 _ hmem
  have hbb : boundaryBefore ((c :: cs)[j-1]?) = false := by
    rw [List.getElem?_eq_getElem hjlt]
    simp [boundaryBefore, hword]
  unfold nameGuard
  rw [findName_none_of_bb romanNames ((c :: cs)[j-1]?) ((c :: cs).drop j) hbb]
  rfl

/-- The name pass (app.js line 198) wraps exactly the boundary-delimited
occurrences of the seven names in strong tags, on every input string and
preceding-character context. -/
theorem boldNames_splice_exact (prev : Option Char) (l : List Char) :
    boldNames prev l =
      splice "<strong>".data "</strong>".data nameLen l
        (occurrencePositions nameGuard prev l) := by
  exact scan_splice_exact (fun p t => boldNames p t) nameGuard nameLen
    "<strong>".data "</strong>".data
    (fun p => rfl)
    (fun p c cs h => boldNames_cons_none p c cs (nameGuard_eq_none p (c :: cs) h))
    (fun p c cs h => boldNames_htrue p c cs h)
    (fun p c cs h => nameGuard_len1 p c cs h)
    (fun p c cs h => nameGuard_lenle p c cs h)
    (fun p c cs j h hj1 hjL => nameGuard_inside p c cs j h hj1 hjL)
    l.length l prev le_rfl

/-- Length of the /Episode \d+/ match at this position: the 8-character
literal plus the greedy digit run. -/
def epLen (cs : List Char) : Nat := 8 + (digitSpan (cs.drop 8)).1.length

theorem digitSpan_append_eq (l : List Char) :
    (digitSpan l).1 ++ (digitSpan l).2 = l := by
  induction l with
  | nil => rfl
  | cons c cs ih =>
    by_cases h : c.isDigit
    · simp only [digitSpan, if_pos h, List.cons_append]
      rw [ih]
    · simp [digitSpan, if_neg h]

theorem digitSpan_fst_digits (l : List Char) :
    ∀ d ∈ (digitSpan l).1, d.isDigit = true := by
  induction l with
  | nil => intro d hd; simp [digitSpan] at hd
  | cons c cs ih =>
    by_cases h : c.isDigit
    · simp only [digitSpan, if_pos h]
      intro d hd
      rcases List.mem_cons.mp hd with rfl | hd
      · exact h
      · exact ih d hd
    · simp [digitSpan, if_neg h]

theorem take_digitSpan (x : List Char) :
    x.take ((digitSpan x).1.length) = (digitSpan x).1 := by
  induction x with
  | nil => rfl
  | cons c cs ih =>
    by_cases h : c.isDigit
    · simp only [digitSpan, if_pos h, List.length_cons, List.take_succ_cons]
      rw [ih]
    · simp [digitSpan, if_neg h]

theorem drop_digitSpan (x : List Char) :
    x.drop ((digitSpan x).1.length) = (digitSpan x).2 := by
  induction x with
  | nil => rfl
  | cons c cs ih =>
    by_cases h : c.isDigit
    · simp only [digitSpan, if_pos h, List.length_cons, List.drop_succ_cons]
      exact ih
    · simp [digitSpan, if_neg h]

theorem prefix_head (e : Char) (es x : List Char)
    (h : (e :: es).isPrefixOf x = true) : x[0]? = some e := by
  cases x with
  | nil => simp [List.isPrefixOf] at h
  | cons y ys =>
    simp only [List.isPrefixOf_cons₂, Bool.and_eq_true, beq_iff_eq] at h
    obtain ⟨rfl, h2⟩ := h
    simp

theorem startsEpisodeRef_pfx (l : List Char) (h : startsEpisodeRef l = true) :
    episodeChars.isPrefixOf l = true := by
  simp only [startsEpisodeRef, Bool.and_eq_true] at h
  exact h.1

theorem episode_take (l : List Char) (h : startsEpisodeRef l = true) :
    l.take (epLen l) = episodeChars ++ (digitSpan (l.drop 8)).1 := by
  have h8 : l.take 8 = episodeChars :=
    prefix_take episodeChars l (startsEpisodeRef_pfx l h)
  unfold epLen
  rw [List.take_add, h8]
  congr 1
  exact take_digitSpan (l.drop 8)

theorem episode_drop (l : List Char) :
    l.drop (epLen l) = (digitSpan (l.drop 8)).2 := by
  unfold epLen
  rw [← List.drop_drop]
  exact drop_digitSpan (l.drop 8)

theorem epLenle (l : List Char) (hm : startsEpisodeRef l = true) :
    epLen l ≤ l.length := by
  have h8 := prefix_len_le episodeChars l (startsEpisodeRef_pfx l hm)
  have he : episodeChars.length = 8 := rfl
  have hd := congrArg List.length (digitSpan_append_eq (l.drop 8))
  simp only [List.length_append, List.length_drop] at hd
  unfold epLen
  omega

theorem epGuard_inside (c : Char) (cs : List Char) (j : Nat)
    (hm : startsEpisodeRef (c :: cs) = true) (hj1 : 1 ≤ j)
    (hjL : j < epLen (c :: cs)) :
    startsEpisodeRef ((c :: cs).drop j) = false := by
  cases hsj : startsEpisodeRef ((c :: cs).drop j) with
  | false => rfl
  | true =>
    exfalso
    have hpre2 := startsEpisodeRef_pfx ((c :: cs).drop j) hsj
    have hE : ((c :: cs).drop j)[0]? = some 'E' :=
      prefix_head 'E' ['p','i','s','o','d','e',' '] ((c :: cs).drop j) hpre2
    have hEj : (c :: cs)[j]? = some 'E' := by
      rw [List.getElem?_drop] at hE
      simpa using hE
    have htk : (c :: cs).take 8 = episodeChars :=
      prefix_take episodeChars (c :: cs) (startsEpisodeRef_pfx (c :: cs) hm)
    by_cases hj8 : j < 8
    · have h1 : ((c :: cs).take 8)[j]? = some 'E' := by
        rw [List.getElem?_take, if_pos hj8]
        exact hEj
      rw [htk] at h1
      have h2 : ∀ i, 1 ≤ i → i < 8 → episodeChars[i]? ≠ some 'E' := by decide
      exact h2 j hj1 hj8 h1
    · push_neg at hj8
      have hjd : j - 8 < (digitSpan ((c :: cs).drop 8)).1.length := by
        unfold epLen at hjL
        omega
      have h3 : ((c :: cs).drop 8)[j - 8]? = (c :: cs)[j]? := by
        rw [List.getElem?_drop]
        rw [show 8 + (j - 8) = j from by omega]
      have h4 : ((digitSpan ((c :: cs).drop 8)).1 ++
          (digitSpan ((c :: cs).drop 8)).2)[j - 8]? = some 'E' := by
        rw [digitSpan_append_eq ((c :: cs).drop 8), h3]
        exact hEj
      rw [List.getElem?_append, if_pos hjd] at h4
      have hmem : ('E' : Char) ∈ (digitSpan ((c :: cs).drop 8)).1 :=
        List.getElem?_mem h4
      have hEd : ('E' : Char).isDigit = true :=
        digitSpan_fst_digits ((c :: cs).drop 8) _ hmem
      exact absurd hEd (by decide)

theorem boldEpisodes_htrue (c : Char) (cs : List Char)
    (hm : startsEpisodeRef (c :: cs) = true) :
    boldEpisodes (c :: cs) =
      "<strong>".data ++ (c :: cs).take (epLen (c :: cs)) ++ "</strong>".data ++
        boldEpisodes ((c :: cs).drop (epLen (c :: cs))) := by
  rw [boldEpisodes_cons_true c cs hm]
  rw [show cs.drop 7 = (c :: cs).drop 8 from rfl]
  rw [episode_take (c :: cs) hm, episode_drop (c :: cs)]
  simp only [List.append_assoc]

/-- The episode pass (app.js line 196) wraps exactly the
Episode-space-digits occurrences in strong tags, on every input string
(the guard ignores the preceding character, so any context works). -/
theorem boldEpisodes_splice_exact (prev : Option Char) (l : List Char) :
    boldEpisodes l =
      splice "<strong>".data "</strong>".data epLen l
        (occurrencePositions (fun _ cs => startsEpisodeRef cs) prev l) := by
  exact scan_splice_exact (fun _ t => boldEpisodes t) (fun _ cs => startsEpisodeRef cs)
    epLen "<strong>".data "</strong>".data
    (fun p => rfl)
    (fun p c cs h => boldEpisodes_cons_false c cs h)
    (fun p c cs h => boldEpisodes_htrue c cs h)
    (fun p c cs h => by unfold epLen; omega)
    (fun p c cs h => epLenle (c :: cs) h)
    (fun p c cs j h hj1 hjL => epGuard_inside c cs j h hj1 hjL)
    l.length l prev le_rfl

/-- The newline-to-br replace (app.js line 192) maps each character
independently: a newline becomes the br tag, everything else is copied. -/
theorem replaceLineBreaks_eq_flatten (l : List Char) :
    replaceLineBreaks l =
      (l.map (fun ch => if ch = '\n' then "<br>".data else [ch])).flatten := by
  induction l with
  | nil => rfl
  | cons c cs ih =>
    by_cases h : c = '\n'
    · simp only [replaceLineBreaks, if_pos h, List.map_cons, List.flatten_cons, ih]
    · simp only [replaceLineBreaks, if_neg h, List.map_cons, List.flatten_cons, ih]
      rfl

/-- Whether a double newline occurs somewhere in the list. -/
def hasNlPair : List Char → Bool
  | [] => false
  | [_] => false
  | c :: d :: cs => (c == '\n' && d == '\n') || hasNlPair (d :: cs)

theorem intercalate_single (sep x : List Char) : List.intercalate sep [x] = x := by
  simp [List.intercalate]

theorem intercalate_cons₂ (sep x y : List Char) (ys : List (List Char)) :
    List.intercalate sep (x :: y :: ys) = x ++ sep ++ List.intercalate sep (y :: ys) := by
  simp [List.intercalate, List.intersperse]

theorem intercalate_cons_head (sep p : List Char) (c : Char) (rest : List (List Char)) :
    List.intercalate sep ((c :: p) :: rest) = c :: List.intercalate sep (p :: rest) := by
  cases rest with
  | nil => rw [intercalate_single, intercalate_single]
  | cons r rs =>
    rw [intercalate_cons₂, intercalate_cons₂]
    rfl

/-- The double-newline-to-paragraph replace (app.js line 191) splits the
answer at disjoint double newlines and joins the parts with the closing/
opening p tags: the parts carry no remaining double newline (the scan is
left-to-right and non-overlapping) and no part before the last ends in a
newline (greediness of the leftmost-match scan). -/
theorem replaceParaBreaks_decomp (l : List Char) :
    ∃ parts : List (List Char),
      parts ≠ [] ∧
      l = List.intercalate ['\n', '\n'] parts ∧
      replaceParaBreaks l = List.intercalate "</p><p>".data parts ∧
      (∀ p ∈ parts, hasNlPair p = false) ∧
      (∀ p ∈ parts.dropLast, p.getLast? ≠ some '\n') := by
  induction l using replaceParaBreaks.induct with
  | case1 =>
    refine ⟨[[]], by simp, ?_, ?_, ?_, ?_⟩
    · rw [intercalate_single]
    · rw [intercalate_single]
      rfl
    · intro p hp
      simp only [List.mem_singleton] at hp
      subst hp
      rfl
    · intro p hp
      simp at hp
  | case2 c =>
    refine ⟨[[c]], by simp, ?_, ?_, ?_, ?_⟩
    · rw [intercalate_single]
    · rw [intercalate_single]
      rfl
    · intro p hp
      simp only [List.mem_singleton] at hp
      subst hp
      rfl
    · intro p hp
      simp at hp
  | case3 c d cs h ih =>
    obtain ⟨parts, hne, hsrc, hout, hfree, hlast⟩ := ih
    obtain ⟨rfl, rfl⟩ := h
    obtain ⟨p0, rest, rfl⟩ := List.exists_cons_of_ne_nil hne
    refine ⟨[] :: p0 :: rest, by simp, ?_, ?_, ?_, ?_⟩
    · rw [intercalate_cons₂, ← hsrc]
      rfl
    · rw [intercalate_cons₂, ← hout]
      rfl
    · intro p hp
      rcases List.mem_cons.mp hp with rfl | hp2
      · rfl
      · exact hfree p hp2
    · intro p hp
      rw [List.dropLast_cons₂] at hp
      rcases List.mem_cons.mp hp with rfl | hp2
      · simp
      · exact hlast p hp2
  | case4 c d cs h ih =>
    obtain ⟨parts, hne, hsrc, hout, hfree, hlast⟩ := ih
    obtain ⟨p0, rest, rfl⟩ := List.exists_cons_of_ne_nil hne
    have hrpb : replaceParaBreaks (c :: d :: cs) = c :: replaceParaBreaks (d :: cs) := by
      show (if c = '\n' ∧ d = '\n' then "</p><p>".data ++ replaceParaBreaks cs
        else c :: replaceParaBreaks (d :: cs)) = c :: replaceParaBreaks (d :: cs)
      rw [if_neg h]
    refine ⟨(c :: p0) :: rest, by simp, ?_, ?_, ?_, ?_⟩
    · rw [intercalate_cons_head, ← hsrc]
    · rw [hrpb, intercalate_cons_head, ← hout]
    · intro p hp
      rcases List.mem_cons.mp hp with rfl | hp2
      · cases p0 with
        | nil => rfl
        | cons e p1 =>
          have hd : d = e := by
            cases rest with
            | nil =>
              rw [intercalate_single] at hsrc
              exact ((List.cons.injEq _ _ _ _).mp hsrc).1
            | cons r rs =>
              rw [intercalate_cons₂] at hsrc
              have hh := congrArg List.head? hsrc
              simpa using hh
          subst hd
          show ((c == '\n' && d == '\n') || hasNlPair (d :: p1)) = false
          have h1 : hasNlPair (d :: p1) = false :=
            hfree (d :: p1) (List.mem_cons_self _ _)
          rw [h1, Bool.or_false]
          cases hc : (c == '\n') with
          | false => rw [Bool.false_and]
          | true =>
            cases hdn : (d == '\n') with
            | false => rw [Bool.and_false]
            | true =>
              exfalso
              exact h ⟨eq_of_beq hc, eq_of_beq hdn⟩
      · exact hfree p (List.mem_cons_of_mem p0 hp2)
    · intro p hp
      cases rest with
      | nil => simp at hp
      | cons r rs =>
        rw [List.dropLast_cons₂] at hp
        rcases List.mem_cons.mp hp with rfl | hp2
        · cases p0 with
          | nil =>
            rw [intercalate_cons₂] at hsrc
            have hd : d = '\n' := by
              have hh := congrArg List.head? hsrc
              simpa using hh
            intro hcn
            exact h ⟨Option.some.inj hcn, hd⟩
          | cons e p1 =>
            rw [List.getLast?_cons_cons]
            have hmem : (e :: p1) ∈ ((e :: p1) :: r :: rs).dropLast := by
              rw [List.dropLast_cons₂]
              exact List.mem_cons_self _ _
            exact hlast (e :: p1) hmem
        · have hmem : p ∈ (p0 :: r :: rs).dropLast := by
            rw [List.dropLast_cons₂]
            exact List.mem_cons_of_mem p0 hp2
          exact hlast p hmem

/-- C8 counterexample: in "Episode 5Caesar" the name Caesar is not at a word
boundary in the original answer (it follows the digit 5), so the claim as
stated predicts it stays unbolded; the code bolds it anyway because the
name pass runs on the string that already contains the inserted episode
strong tags. -/
theorem formatAnswer_claim_counterexample :
    formatAnswer "Episode 5Caesar" =
      "<p><strong>Episode 5</strong><strong>Caesar</strong></p>" ∧
    formatAnswer "Episode 5Caesar" ≠ "<p><strong>Episode 5</strong>Caesar</p>" := by
  decide

/-- C8 (amended): formatAnswer first converts double newlines to paragraph
breaks (splitting at disjoint double newlines and joining with closing/
opening p tags) and remaining newlines to br tags, wraps the result in a p
element, then the episode pass wraps exactly the Episode-digits occurrences
in strong tags, and finally the name pass wraps exactly the
boundary-delimited occurrences of the seven names in the episode pass's
output — each pass is the splice of its tags at its occurrence positions,
every other character copied; word boundaries for names are judged against
the partially transformed string, as "Episode 5Caesar" shows. -/
theorem formatAnswer_bolding :
    (∀ answer : String,
      formatAnswer answer = String.mk (boldNames none (boldEpisodes
        ("<p>".data ++ replaceLineBreaks (replaceParaBreaks answer.data) ++
          "</p>".data)))) ∧
    (∀ l : List Char, ∃ parts : List (List Char), parts ≠ [] ∧
      l = List.intercalate ['\n', '\n'] parts ∧
      replaceParaBreaks l = List.intercalate "</p><p>".data parts ∧
      (∀ p ∈ parts, hasNlPair p = false) ∧
      (∀ p ∈ parts.dropLast, p.getLast? ≠ some '\n')) ∧
    (∀ l : List Char, replaceLineBreaks l =
      (l.map (fun ch => if ch = '\n' then "<br>".data else [ch])).flatten) ∧
    (∀ (prev : Option Char) (l : List Char),
      boldEpisodes l =
        splice "<strong>".data "</strong>".data epLen l
          (occurrencePositions (fun _ cs => startsEpisodeRef cs) prev l)) ∧
    (∀ (prev : Option Char) (l : List Char),
      boldNames prev l =
        splice "<strong>".data "</strong>".data nameLen l
          (occurrencePositions nameGuard prev l)) :=
  ⟨fun _ => rfl, replaceParaBreaks_decomp, replaceLineBreaks_eq_flatten,
   boldEpisodes_splice_exact, boldNames_splice_exact⟩

/-- The pieces of UI state that askQuestion and its helpers touch. -/
structure UIState where
  askDisabled : Bool
  askLabel : String
  loadingVisible : Bool
  loadingText : String
  responseVisible : Bool
  examplesVisible : Bool
  answerHTML : String
  contextHTML : String
  metaHTML : String
deriving DecidableEq

/-- The ask button's idle label (app.js line 142). -/
def askLabelDefault : String := "<i class=\"fas fa-search\"></i> Ask Question"

/-- The ask button's busy label (app.js line 110). -/
def askLabelBusy : String := "<i class=\"fas fa-spinner fa-spin\"></i> Processing..."

/-- Embedded from app.js displayError (lines 214-229): render the message in
the answer area, clear the context list and metadata, show the response
section. -/
def displayError (message : String) (ui : UIState) : UIState :=
  { ui with
    answerHTML := "<div><i class=\"fas fa-exclamation-triangle\"></i><h3>Error</h3><p>" ++
      message ++ "</p><p>Please try again or check if the system is running properly.</p></div>",
    contextHTML := "",
    metaHTML := "",
    responseVisible := true }

/-- Embedded from app.js displayResponse (lines 163-180): one context card
with episode header, score, timestamp and highlighted text. -/
def contextItemHTML (question : String) (c : RetrievedContext) : String :=
  "<div class=\"context-item\"><div class=\"context-episode\">Episode " ++
    toString c.segment.episode_number ++ ": " ++ c.segment.episode_title ++
    "</div><div class=\"context-score\">" ++ toString (c.score * 100) ++
    "% match</div><div class=\"context-timestamp\">" ++ c.segment.timestamp ++
    "</div><div class=\"context-text\">" ++
    highlightRelevantText c.segment.text question ++ "</div></div>"

/-- Embedded from app.js displayResponse (lines 147-186): the timing and
model metadata, the formatted answer, the context cards, and showing the
response section. -/
def displayResponse (body : ApiResponse) (ui : UIState) : UIState :=
  { ui with
    metaHTML := "<div><i class=\"fas fa-clock\"></i> " ++
      toString (body.total_time.getD 0) ++ "s total (" ++
      toString (body.search_time.getD 0) ++ "s search + " ++
      toString (body.generation_time.getD 0) ++ "s generation)</div><div><i class=\"fas fa-brain\"></i> " ++
      body.model.getD "" ++ "</div>",
    answerHTML := formatAnswer (body.answer.getD ""),
    contextHTML := String.join ((body.contexts.getD []).map (contextItemHTML (body.question.getD ""))),
    responseVisible := true }

/-- Embedded from app.js askQuestion (lines 96-145): a trimmed-empty question
alerts and returns with the state untouched; otherwise the loading section
is shown, the response and examples hidden, the button disabled with the
busy label, the fetch outcome rendered as error or answer, and the finally
block unconditionally re-enables the button, restores its label and hides
the loading section. -/
def askQuestion (inputValue : String) (outcome : FetchOutcome) (ui : UIState) : UIState :=
  if jsTrim inputValue = "" then ui
  else
    let ui1 := { ui with
      loadingVisible := true, loadingText := "Searching for relevant context...",
      responseVisible := false, examplesVisible := false,
      askDisabled := true, askLabel := askLabelBusy }
    let ui2 := match handleFetch outcome with
      | .showError m => displayError m ui1
      | .showAnswer body => displayResponse body ui1
    { ui2 with askDisabled := false, askLabel := askLabelDefault, loadingVisible := false }

/-- C10: every askQuestion invocation that passes the non-empty-question
check ends with the button re-enabled, the idle label restored and the
loading section hidden — whatever the fetch outcome was. -/
theorem askQuestion_cleanup (input : String) (outcome : FetchOutcome) (ui : UIState)
    (h : jsTrim input ≠ "") :
    (askQuestion input outcome ui).askDisabled = false ∧
    (askQuestion input outcome ui).askLabel = askLabelDefault ∧
    (askQuestion input outcome ui).loadingVisible = false := by
  unfold askQuestion
  rw [if_neg h]
  cases hf : handleFetch outcome <;> simp [hf, displayError, displayResponse]

/-- C10 witness: a network failure on a concrete non-empty question leaves
the button enabled with the idle label and the loading section hidden. -/
theorem askQuestion_cleanup_witness :
    (askQuestion "who was caesar" (.networkFailure "connection refused")
      ⟨true, "x", true, "y", false, true, "", "", ""⟩).askDisabled = false ∧
    (askQuestion "who was caesar" (.networkFailure "connection refused")
      ⟨true, "x", true, "y", false, true, "", "", ""⟩).askLabel = askLabelDefault ∧
    (askQuestion "who was caesar" (.networkFailure "connection refused")
      ⟨true, "x", true, "y", false, true, "", "", ""⟩).loadingVisible = false :=
  askQuestion_cleanup "who was caesar" (.networkFailure "connection refused")
    ⟨true, "x", true, "y", false, true, "", "", ""⟩ (by decide)

end RomeRag
